import Mathlib

/-!
Verification of the lottery-ticket sorting benchmark (`main.cpp`).

The development shallowly embeds the program: the `LotteryTicket` record and
its comparison operators, the three hand-written in-place sorting routines
(selection sort, bubble sort, heap sort with its recursive `heapify`),
the benchmark harness in `main`, and the CSV reader/writer.  Vectors are
embedded as `List`, machine integers as `Int` (no arithmetic in the program
can overflow: the only operations on the integer fields are comparisons),
and `std::string` as `String` (at the parsing layer, as `List Char`).
-/

/-- Embedding of the C++ class `LotteryTicket` (main.cpp:30-71).
`ticketNumber` is a `long long`, `cost` and `winAmount` are `int`,
`lotteryDate` an `std::string`; the program only ever compares these
fields, so `Int`/`String` values model them exactly. -/
structure LotteryTicket where
  ticketNumber : Int
  cost : Int
  lotteryDate : String
  winAmount : Int
deriving DecidableEq, Repr

/-- Embedding of `LotteryTicket::operator<` (main.cpp:55-63): by date
ascending, then win amount descending, then ticket number ascending. -/
def tLt (a b : LotteryTicket) : Bool :=
  if a.lotteryDate ≠ b.lotteryDate then
    decide (a.lotteryDate < b.lotteryDate)
  else if a.winAmount ≠ b.winAmount then
    decide (a.winAmount > b.winAmount)
  else
    decide (a.ticketNumber < b.ticketNumber)

/-- Embedding of `LotteryTicket::operator>` (main.cpp:66): `a > b ⟺ b < a`. -/
def tGt (a b : LotteryTicket) : Bool := tLt b a

/-- Embedding of `LotteryTicket::operator<=` (main.cpp:68): `a <= b ⟺ ¬(a > b)`. -/
def tLe (a b : LotteryTicket) : Bool := !(tGt a b)

/-- The comparison key underlying `tLt`: lexicographically, date ascending,
negated win amount ascending (= win amount descending), ticket ascending. -/
def tKey (t : LotteryTicket) : String ×ₗ (Int ×ₗ Int) :=
  toLex (t.lotteryDate, toLex (-t.winAmount, t.ticketNumber))

theorem tLt_iff_key (a b : LotteryTicket) : tLt a b = true ↔ tKey a < tKey b := by
  unfold tLt tKey
  rcases eq_or_ne a.lotteryDate b.lotteryDate with hd | hd
  · rcases eq_or_ne a.winAmount b.winAmount with hw | hw
    · simp [hd, hw, Prod.Lex.lt_iff]
    · simp [hd, hw, Prod.Lex.lt_iff]
  · simp [hd, Prod.Lex.lt_iff]

theorem tKey_eq_iff (a b : LotteryTicket) :
    tKey a = tKey b ↔ (a.lotteryDate = b.lotteryDate ∧ a.winAmount = b.winAmount ∧
      a.ticketNumber = b.ticketNumber) := by
  unfold tKey
  constructor
  · intro h
    have h' : (a.lotteryDate, toLex (-a.winAmount, a.ticketNumber)) =
        (b.lotteryDate, toLex (-b.winAmount, b.ticketNumber)) := congrArg ofLex h
    have h1 := congrArg Prod.fst h'
    have h2 : toLex (-a.winAmount, a.ticketNumber) = toLex (-b.winAmount, b.ticketNumber) :=
      congrArg Prod.snd h'
    have h2' : (-a.winAmount, a.ticketNumber) = (-b.winAmount, b.ticketNumber) :=
      congrArg ofLex h2
    have h3 := congrArg Prod.fst h2'
    have h4 := congrArg Prod.snd h2'
    simp only at h1 h3 h4
    refine ⟨h1, by omega, h4⟩
  · rintro ⟨h1, h2, h3⟩
    simp [h1, h2, h3]

/-- The relation `tLt` is asymmetric. -/
theorem tLt_asymm {a b : LotteryTicket} (h : tLt a b = true) : tLt b a = false := by
  rw [tLt_iff_key] at h
  by_contra hc
  have : tLt b a = true := by
    cases hedge : tLt b a with
    | false => exact absurd hedge hc
    | true => rfl
  rw [tLt_iff_key] at this
  exact absurd (lt_trans h this) (lt_irrefl _)

/-- The relation `tLt` is irreflexive. -/
theorem tLt_irrefl (a : LotteryTicket) : tLt a a = false := by
  cases h : tLt a a with
  | false => rfl
  | true => rw [tLt_iff_key] at h; exact absurd h (lt_irrefl _)

/-- The relation `tLt` is transitive. -/
theorem tLt_trans {a b c : LotteryTicket} (h1 : tLt a b = true) (h2 : tLt b c = true) :
    tLt a c = true := by
  rw [tLt_iff_key] at h1 h2 ⊢
  exact lt_trans h1 h2

/-- If `a < c` then for any `b`, `a < b` or `b < c` (comparison connectedness). -/
theorem tLt_conn {a c : LotteryTicket} (b : LotteryTicket) (h : tLt a c = true) :
    tLt a b = true ∨ tLt b c = true := by
  rw [tLt_iff_key] at h ⊢
  rw [tLt_iff_key]
  rcases lt_or_le (tKey a) (tKey b) with h' | h'
  · exact Or.inl h'
  · exact Or.inr (lt_of_le_of_lt h' h)

/-- Records unrelated by `tLt` in either direction have equal sort keys. -/
theorem tLt_eq_keys {a b : LotteryTicket} (h1 : tLt a b = false) (h2 : tLt b a = false) :
    a.lotteryDate = b.lotteryDate ∧ a.winAmount = b.winAmount ∧
      a.ticketNumber = b.ticketNumber := by
  rw [← tKey_eq_iff]
  rcases lt_trichotomy (tKey a) (tKey b) with h | h | h
  · rw [← tLt_iff_key] at h; rw [h1] at h; cases h
  · exact h
  · rw [← tLt_iff_key] at h; rw [h2] at h; cases h

/-! ### Generic list machinery: `std::swap(arr[i], arr[j])` on an embedded vector -/

section SwapMachinery

variable {T : Type} [Inhabited T]

/-- Embedding of `std::swap(arr[i], arr[j])` on a vector embedded as a list.
All call sites in the program have both indices in bounds; out-of-bounds
indices leave the list unchanged. -/
def listSwap (l : List T) (i j : Nat) : List T :=
  if i < l.length ∧ j < l.length then
    (l.set i (l.getD j default)).set j (l.getD i default)
  else l

theorem length_listSwap (l : List T) (i j : Nat) : (listSwap l i j).length = l.length := by
  unfold listSwap
  split <;> simp

theorem listSwap_comm (l : List T) (i j : Nat) : listSwap l i j = listSwap l j i := by
  unfold listSwap
  rcases eq_or_ne i j with rfl | hne
  · rfl
  · split
    · rename_i h
      rw [if_pos ⟨h.2, h.1⟩, List.set_comm _ _ _ hne]
    · rename_i h
      rw [if_neg (fun hc => h ⟨hc.2, hc.1⟩)]


theorem getD_congr (l : List T) {i : Nat} (hi : i < l.length) (d d' : T) :
    l.getD i d = l.getD i d' := by
  rw [List.getD_eq_getElem _ _ hi, List.getD_eq_getElem _ _ hi]

theorem getD_listSwap_fst (l : List T) {i j : Nat} (hi : i < l.length) (hj : j < l.length)
    (d : T) : (listSwap l i j).getD i d = l.getD j d := by
  unfold listSwap
  rw [if_pos ⟨hi, hj⟩, List.getD_eq_getElem _ _ (by simpa using hi)]
  rcases eq_or_ne i j with rfl | hne
  · rw [List.getElem_set_self]
    exact getD_congr l hi default d
  · rw [List.getElem_set_ne (fun h => hne h.symm), List.getElem_set_self]
    exact getD_congr l hj default d

theorem getD_listSwap_snd (l : List T) {i j : Nat} (hi : i < l.length) (hj : j < l.length)
    (d : T) : (listSwap l i j).getD j d = l.getD i d := by
  rw [listSwap_comm]
  exact getD_listSwap_fst l hj hi d

theorem getD_listSwap_other (l : List T) {i j k : Nat} (hki : k ≠ i) (hkj : k ≠ j)
    (d : T) : (listSwap l i j).getD k d = l.getD k d := by
  unfold listSwap
  split
  · rcases Nat.lt_or_ge k l.length with hk | hk
    · rw [List.getD_eq_getElem _ _ (by simpa using hk),
        List.getElem_set_ne (fun h => hkj h.symm),
        List.getElem_set_ne (fun h => hki h.symm)]
      exact (List.getD_eq_getElem l d hk).symm
    · rw [List.getD_eq_default _ _ (by simpa using hk), List.getD_eq_default _ _ hk]
  · rfl

theorem exchange_perm (d : T) : ∀ (xs : List T) (m : Nat) (x : T), m < xs.length →
    List.Perm ((xs.getD m d) :: xs.set m x) (x :: xs) := by
  intro xs
  induction xs with
  | nil => intro m x h; simp at h
  | cons y ys ih =>
    intro m x h
    cases m with
    | zero =>
      simp only [List.getD_cons_zero, List.set_cons_zero]
      exact List.Perm.swap x y ys
    | succ k =>
      simp only [List.getD_cons_succ, List.set_cons_succ]
      have h1 : List.Perm (ys.getD k d :: y :: ys.set k x) (y :: (ys.getD k d :: ys.set k x)) :=
        List.Perm.swap y (ys.getD k d) (ys.set k x)
      have h2 : List.Perm (y :: (ys.getD k d :: ys.set k x)) (y :: (x :: ys)) :=
        (ih k x (by simpa using h)).cons y
      exact (h1.trans h2).trans (List.Perm.swap x y ys)

theorem listSwap_perm (l : List T) (i j : Nat) : List.Perm (listSwap l i j) l := by
  induction l generalizing i j with
  | nil => unfold listSwap; simp
  | cons x xs ih =>
    cases i with
    | zero =>
      cases j with
      | zero =>
        unfold listSwap
        split <;> simp
      | succ m =>
        unfold listSwap
        split
        · rename_i h
          have hm : m < xs.length := by simpa using h.2
          simp only [List.getD_cons_succ, List.getD_cons_zero, List.set_cons_zero,
            List.set_cons_succ]
          exact exchange_perm default xs m x hm
        · exact List.Perm.refl _
    | succ p =>
      cases j with
      | zero =>
        rw [listSwap_comm]
        unfold listSwap
        split
        · rename_i h
          have hp : p < xs.length := by simpa using h.2
          simp only [List.getD_cons_succ, List.getD_cons_zero, List.set_cons_zero,
            List.set_cons_succ]
          exact exchange_perm default xs p x hp
        · exact List.Perm.refl _
      | succ q =>
        have hstep : listSwap (x :: xs) (p + 1) (q + 1) = x :: listSwap xs p q := by
          unfold listSwap
          rcases Nat.lt_or_ge p xs.length with hp | hp
          · rcases Nat.lt_or_ge q xs.length with hq | hq
            · rw [if_pos ⟨by simpa using Nat.succ_lt_succ hp, by simpa using Nat.succ_lt_succ hq⟩,
                if_pos ⟨hp, hq⟩]
              simp
            · rw [if_neg (by simp; omega), if_neg (by omega)]
          · rw [if_neg (by simp; omega), if_neg (by omega)]
        rw [hstep]
        exact (ih p q).cons x

end SwapMachinery

section SwapExtra

variable {T : Type} [Inhabited T]

theorem listSwap_cons_succ (x : T) (xs : List T) (p q : Nat) :
    listSwap (x :: xs) (p + 1) (q + 1) = x :: listSwap xs p q := by
  unfold listSwap
  rcases Nat.lt_or_ge p xs.length with hp | hp
  · rcases Nat.lt_or_ge q xs.length with hq | hq
    · rw [if_pos ⟨by simpa using Nat.succ_lt_succ hp, by simpa using Nat.succ_lt_succ hq⟩,
        if_pos ⟨hp, hq⟩]
      simp
    · rw [if_neg (by simp; omega), if_neg (by omega)]
  · rw [if_neg (by simp; omega), if_neg (by omega)]

theorem listSwap_zero_one (x y : T) (rest : List T) :
    listSwap (x :: y :: rest) 0 1 = y :: x :: rest := by
  unfold listSwap
  rw [if_pos ⟨by simp, by simp⟩]
  simp

end SwapExtra

/-! ### Bubble sort (main.cpp:112-122) -/

section BubbleSort

variable {T : Type} [Inhabited T] (lt : T → T → Bool)

/-- One iteration of bubble sort's inner loop body (main.cpp:117-119):
if `arr[j] > arr[j+1]` (that is, `arr[j+1] < arr[j]`, via `operator>`),
swap the adjacent elements. -/
def bubbleStep (l : List T) (j : Nat) : List T :=
  if lt (l.getD (j+1) default) (l.getD j default) then listSwap l j (j+1) else l

/-- Bubble sort's inner loop (main.cpp:116-120): run the loop body at
positions `j, j+1, ..., j+s-1`; a call with `j = 0` and `s = n - i - 1`
is exactly the source's `for (j = 0; j < n - i - 1; j++)`. -/
def bubblePass (l : List T) (j : Nat) : Nat → List T
  | 0 => l
  | s+1 => bubblePass (bubbleStep lt l j) (j+1) s

/-- Bubble sort's outer loop (main.cpp:115-121).  The counter is the number
of remaining passes; the pass executed at counter value `r+1` has inner
bound `r+1 = n - i - 1`, matching the source's pass for index `i`. -/
def bubbleOuter (l : List T) : Nat → List T
  | 0 => l
  | r+1 => bubbleOuter (bubblePass lt l 0 (r+1)) r

/-- Embedding of `bubbleSort` (main.cpp:112-122): `n - 1` passes over
shrinking ranges. -/
def bubbleSortL (l : List T) : List T := bubbleOuter lt l (l.length - 1)

theorem length_bubbleStep (l : List T) (j : Nat) : (bubbleStep lt l j).length = l.length := by
  unfold bubbleStep
  split
  · exact length_listSwap l j (j+1)
  · rfl

theorem bubbleStep_perm (l : List T) (j : Nat) : List.Perm (bubbleStep lt l j) l := by
  unfold bubbleStep
  split
  · exact listSwap_perm l j (j+1)
  · exact List.Perm.refl l

theorem getD_bubbleStep_other (l : List T) {j k : Nat} (h : k ≠ j ∧ k ≠ j + 1) (d : T) :
    (bubbleStep lt l j).getD k d = l.getD k d := by
  unfold bubbleStep
  split
  · exact getD_listSwap_other l h.1 h.2 d
  · rfl

theorem length_bubblePass (s : Nat) : ∀ (l : List T) (j : Nat),
    (bubblePass lt l j s).length = l.length := by
  induction s with
  | zero => intro l j; rfl
  | succ s ih =>
    intro l j
    show (bubblePass lt (bubbleStep lt l j) (j+1) s).length = l.length
    rw [ih, length_bubbleStep]

theorem bubblePass_perm (s : Nat) : ∀ (l : List T) (j : Nat),
    List.Perm (bubblePass lt l j s) l := by
  induction s with
  | zero => intro l j; exact List.Perm.refl l
  | succ s ih =>
    intro l j
    exact (ih (bubbleStep lt l j) (j+1)).trans (bubbleStep_perm lt l j)

theorem getD_bubblePass_outside (s : Nat) : ∀ (l : List T) (j k : Nat) (d : T),
    (k < j ∨ j + s < k) → (bubblePass lt l j s).getD k d = l.getD k d := by
  induction s with
  | zero => intro l j k d _; rfl
  | succ s ih =>
    intro l j k d hk
    show (bubblePass lt (bubbleStep lt l j) (j+1) s).getD k d = l.getD k d
    rw [ih _ (j+1) k d (by omega), getD_bubbleStep_other lt l (by omega) d]

theorem getD_bubblePass_inside (s : Nat) : ∀ (l : List T) (j k : Nat) (d : T),
    j ≤ k → k ≤ j + s →
    ∃ k', j ≤ k' ∧ k' ≤ j + s ∧ (bubblePass lt l j s).getD k d = l.getD k' d := by
  induction s with
  | zero =>
    intro l j k d h1 h2
    exact ⟨k, h1, h2, rfl⟩
  | succ s ih =>
    intro l j k d h1 h2
    show ∃ k', _ ∧ _ ∧ (bubblePass lt (bubbleStep lt l j) (j+1) s).getD k d = l.getD k' d
    rcases Nat.lt_or_ge k (j+1) with hk | hk
    · have hkj : k = j := by omega
      have houts : (bubblePass lt (bubbleStep lt l j) (j+1) s).getD k d
          = (bubbleStep lt l j).getD k d :=
        getD_bubblePass_outside lt s _ (j+1) k d (by omega)
      rw [houts, hkj]
      unfold bubbleStep
      split
      · rcases Nat.lt_or_ge (j+1) l.length with hlen | hlen
        · exact ⟨j+1, by omega, by omega, getD_listSwap_fst l (by omega) hlen d⟩
        · refine ⟨j, by omega, by omega, ?_⟩
          unfold listSwap
          rw [if_neg (by omega)]
      · exact ⟨j, by omega, by omega, rfl⟩
    · obtain ⟨k', hk'1, hk'2, hk'3⟩ := ih (bubbleStep lt l j) (j+1) k d hk (by omega)
      rcases Nat.lt_or_ge k' (j+2) with hks | hks
      · have hkp : k' = j + 1 := by omega
        rw [hkp] at hk'3
        revert hk'3
        unfold bubbleStep
        split
        · intro hk'3
          rcases Nat.lt_or_ge (j+1) l.length with hlen | hlen
          · exact ⟨j, by omega, by omega,
              hk'3.trans (getD_listSwap_snd l (by omega) hlen d)⟩
          · refine ⟨j+1, by omega, by omega, ?_⟩
            rw [hk'3]
            unfold listSwap
            rw [if_neg (by omega)]
        · intro hk'3
          exact ⟨j+1, by omega, by omega, hk'3⟩
      · refine ⟨k', by omega, by omega, ?_⟩
        rw [hk'3, getD_bubbleStep_other lt l (by omega) d]

end BubbleSort

section BubbleSortProofs

variable {T : Type} [Inhabited T] (lt : T → T → Bool)

theorem lt_irrefl_of_asymm (hasym : ∀ a b, lt a b = true → lt b a = false)
    (a : T) : lt a a = false := by
  cases h : lt a a with
  | false => rfl
  | true => rw [← h]; exact hasym a a h

theorem bubblePass_max (hasym : ∀ a b, lt a b = true → lt b a = false)
    (hconn : ∀ a c, lt a c = true → ∀ b, lt a b = true ∨ lt b c = true)
    (s : Nat) : ∀ (l : List T) (j : Nat),
    j + s < l.length →
    (∀ k, k ≤ j → lt (l.getD j default) (l.getD k default) = false) →
    ∀ k, k ≤ j + s →
      lt ((bubblePass lt l j s).getD (j+s) default)
        ((bubblePass lt l j s).getD k default) = false := by
  induction s with
  | zero =>
    intro l j _ H k hk
    exact H k hk
  | succ s ih =>
    intro l j hlen H k hk
    have hj1 : j + 1 < l.length := by omega
    have hj0 : j < l.length := by omega
    have H' : ∀ k, k ≤ j + 1 →
        lt ((bubbleStep lt l j).getD (j+1) default)
          ((bubbleStep lt l j).getD k default) = false := by
      intro k hk
      unfold bubbleStep
      split
      · rename_i hsw
        rw [getD_listSwap_snd l hj0 hj1]
        rcases Nat.lt_trichotomy k j with hkj | hkj | hkj
        · rw [getD_listSwap_other l (by omega) (by omega)]
          exact H k (by omega)
        · rw [hkj, getD_listSwap_fst l hj0 hj1]
          exact hasym _ _ hsw
        · have : k = j + 1 := by omega
          rw [this, getD_listSwap_snd l hj0 hj1]
          exact lt_irrefl_of_asymm lt hasym _
      · rename_i hsw
        have hsw' : lt (l.getD (j+1) default) (l.getD j default) = false := by
          simpa using hsw
        rcases Nat.lt_trichotomy k j with hkj | hkj | hkj
        · cases hcc : lt (l.getD (j+1) default) (l.getD k default) with
          | false => rfl
          | true =>
            rcases hconn _ _ hcc (l.getD j default) with h | h
            · rw [hsw'] at h; cases h
            · rw [H k (by omega)] at h; cases h
        · rw [hkj]; exact hsw'
        · have : k = j + 1 := by omega
          rw [this]
          exact lt_irrefl_of_asymm lt hasym _
    have hgoal := ih (bubbleStep lt l j) (j+1)
      (by rw [length_bubbleStep]; omega) H' k (by omega)
    have harith : j + 1 + s = j + (s + 1) := by omega
    rw [harith] at hgoal
    exact hgoal

theorem length_bubbleOuter (r : Nat) : ∀ (l : List T),
    (bubbleOuter lt l r).length = l.length := by
  induction r with
  | zero => intro l; rfl
  | succ r ih =>
    intro l
    show (bubbleOuter lt (bubblePass lt l 0 (r+1)) r).length = l.length
    rw [ih, length_bubblePass]

theorem bubbleOuter_perm (r : Nat) : ∀ (l : List T),
    List.Perm (bubbleOuter lt l r) l := by
  induction r with
  | zero => intro l; exact List.Perm.refl l
  | succ r ih =>
    intro l
    exact (ih (bubblePass lt l 0 (r+1))).trans (bubblePass_perm lt (r+1) l 0)

theorem bubbleOuter_sorted_aux (hasym : ∀ a b, lt a b = true → lt b a = false)
    (hconn : ∀ a c, lt a c = true → ∀ b, lt a b = true ∨ lt b c = true) :
    ∀ (r : Nat) (l : List T), r < l.length →
    (∀ q, r < q → q < l.length → ∀ p, p < q →
      lt (l.getD q default) (l.getD p default) = false) →
    ∀ q p, p < q → q < l.length →
      lt ((bubbleOuter lt l r).getD q default)
        ((bubbleOuter lt l r).getD p default) = false := by
  intro r
  induction r with
  | zero =>
    intro l _ hInv q p hpq hq
    exact hInv q (by omega) hq p hpq
  | succ r ih =>
    intro l hrl hInv q p hpq hq
    have hlen' : (bubblePass lt l 0 (r+1)).length = l.length := length_bubblePass lt _ l 0
    have hInv' : ∀ q, r < q → q < (bubblePass lt l 0 (r+1)).length → ∀ p, p < q →
        lt ((bubblePass lt l 0 (r+1)).getD q default)
          ((bubblePass lt l 0 (r+1)).getD p default) = false := by
      intro q hrq hql p hpq
      rcases Nat.lt_or_ge q (r+2) with hq2 | hq2
      · have hq1 : q = r + 1 := by omega
        have hmax := bubblePass_max lt hasym hconn (r+1) l 0 (by omega)
          (fun k hk => by
            have : k = 0 := by omega
            rw [this]
            exact lt_irrefl_of_asymm lt hasym _) p (by omega)
        have h01 : 0 + (r+1) = r + 1 := by omega
        rw [h01] at hmax
        rw [hq1]
        exact hmax
      · have hqout : (bubblePass lt l 0 (r+1)).getD q default = l.getD q default :=
          getD_bubblePass_outside lt (r+1) l 0 q default (by omega)
        rcases Nat.lt_or_ge (r+1) p with hp2 | hp2
        · have hpout : (bubblePass lt l 0 (r+1)).getD p default = l.getD p default :=
            getD_bubblePass_outside lt (r+1) l 0 p default (by omega)
          rw [hqout, hpout]
          exact hInv q (by omega) (by omega) p hpq
        · obtain ⟨p', _, hp'2, hp'3⟩ :=
            getD_bubblePass_inside lt (r+1) l 0 p default (by omega) (by omega)
          rw [hqout, hp'3]
          exact hInv q (by omega) (by omega) p' (by omega)
    have := ih (bubblePass lt l 0 (r+1)) (by rw [hlen']; omega) hInv' q p hpq
      (by rw [hlen']; omega)
    exact this

theorem bubbleSortL_perm (l : List T) : List.Perm (bubbleSortL lt l) l :=
  bubbleOuter_perm lt (l.length - 1) l

theorem length_bubbleSortL (l : List T) : (bubbleSortL lt l).length = l.length :=
  length_bubbleOuter lt (l.length - 1) l

theorem bubbleSortL_sorted_idx (hasym : ∀ a b, lt a b = true → lt b a = false)
    (hconn : ∀ a c, lt a c = true → ∀ b, lt a b = true ∨ lt b c = true)
    (l : List T) : ∀ q p, p < q → q < l.length →
    lt ((bubbleSortL lt l).getD q default) ((bubbleSortL lt l).getD p default) = false := by
  intro q p hpq hql
  cases hl : l.length with
  | zero => omega
  | succ m =>
    have := bubbleOuter_sorted_aux lt hasym hconn m l (by omega)
      (fun q hmq hql p hpq => by omega) q p hpq hql
    unfold bubbleSortL
    rw [hl]
    simpa using this

end BubbleSortProofs

section GenericSortedBridge

variable {T : Type} [Inhabited T] (lt : T → T → Bool)

/-- Non-decreasing under the strict comparison `lt`: no later element is
strictly below an earlier one. -/
def SortedW (l : List T) : Prop := List.Pairwise (fun a b => lt b a = false) l

theorem sortedW_of_getD {l : List T}
    (h : ∀ p q, p < q → q < l.length → lt (l.getD q default) (l.getD p default) = false) :
    SortedW lt l := by
  rw [SortedW, List.pairwise_iff_getElem]
  intro i j hi hj hij
  have hh := h i j hij hj
  rw [List.getD_eq_getElem _ _ hj, List.getD_eq_getElem _ _ hi] at hh
  exact hh

theorem getD_of_sortedW {l : List T} (h : SortedW lt l) :
    ∀ p q, p < q → q < l.length → lt (l.getD q default) (l.getD p default) = false := by
  intro p q hpq hq
  rw [SortedW, List.pairwise_iff_getElem] at h
  have hh := h p q (by omega) hq hpq
  rw [List.getD_eq_getElem _ _ hq, List.getD_eq_getElem _ _ (by omega : p < l.length)]
  exact hh

end GenericSortedBridge

section BubbleInstrument

variable {T : Type} [Inhabited T] (lt : T → T → Bool)

/-- Instrumented variant of bubble sort's outer loop that also counts the
number of passes executed (the source has no early-exit: the recursion
consumes every counter value unconditionally). -/
def bubbleOuterCount (l : List T) : Nat → List T × Nat
  | 0 => (l, 0)
  | r+1 =>
    let q := bubbleOuterCount (bubblePass lt l 0 (r+1)) r
    (q.1, q.2 + 1)

/-- Instrumented `bubbleSort`: result plus the number of passes executed. -/
def bubbleSortCount (l : List T) : List T × Nat := bubbleOuterCount lt l (l.length - 1)

theorem bubbleOuterCount_spec (r : Nat) : ∀ (l : List T),
    bubbleOuterCount lt l r = (bubbleOuter lt l r, r) := by
  induction r with
  | zero => intro l; rfl
  | succ r ih =>
    intro l
    show (let q := bubbleOuterCount lt (bubblePass lt l 0 (r+1)) r; (q.1, q.2 + 1)) = _
    rw [ih]
    rfl

theorem bubblePass_id_of_sorted (s : Nat) : ∀ (l : List T) (j : Nat), j + s < l.length →
    (∀ p q, p < q → q < l.length → lt (l.getD q default) (l.getD p default) = false) →
    bubblePass lt l j s = l := by
  induction s with
  | zero => intro l j _ _; rfl
  | succ s ih =>
    intro l j hlen hs
    have hstep : bubbleStep lt l j = l := by
      unfold bubbleStep
      rw [hs j (j+1) (by omega) (by omega)]
      simp
    show bubblePass lt (bubbleStep lt l j) (j+1) s = l
    rw [hstep]
    exact ih l (j+1) (by omega) hs

theorem bubbleOuter_id_of_sorted (r : Nat) : ∀ (l : List T), r < l.length →
    (∀ p q, p < q → q < l.length → lt (l.getD q default) (l.getD p default) = false) →
    bubbleOuter lt l r = l := by
  induction r with
  | zero => intro l _ _; rfl
  | succ r ih =>
    intro l hr hs
    show bubbleOuter lt (bubblePass lt l 0 (r+1)) r = l
    rw [bubblePass_id_of_sorted lt (r+1) l 0 (by omega) hs]
    exact ih l (by omega) hs

theorem bubbleSortL_id_of_sorted (l : List T)
    (hs : ∀ p q, p < q → q < l.length → lt (l.getD q default) (l.getD p default) = false) :
    bubbleSortL lt l = l := by
  cases hl : l.length with
  | zero => unfold bubbleSortL; rw [hl]; rfl
  | succ m =>
    unfold bubbleSortL
    rw [hl]
    exact bubbleOuter_id_of_sorted lt (m+1-1) l (by omega) hs

end BubbleInstrument

section BubbleStability

variable {T : Type} [Inhabited T] (lt : T → T → Bool) (p : T → Bool)

theorem filter_swap_adj : ∀ (l : List T) (j : Nat), j + 1 < l.length →
    ¬(p (l.getD j default) = true ∧ p (l.getD (j+1) default) = true) →
    (listSwap l j (j+1)).filter p = l.filter p := by
  intro l
  induction l with
  | nil => intro j h _; simp at h
  | cons x xs ih =>
    intro j hj hnp
    cases j with
    | zero =>
      cases xs with
      | nil => simp at hj
      | cons y rest =>
        rw [listSwap_zero_one]
        simp only [List.getD_cons_zero, List.getD_cons_succ] at hnp
        cases px : p x <;> cases py : p y <;>
          simp_all [List.filter_cons]
    | succ m =>
      rw [listSwap_cons_succ]
      simp only [List.getD_cons_succ] at hnp
      have := ih m (by simpa using hj) hnp
      cases px : p x <;> simp [List.filter_cons, px, this]

theorem filter_bubbleStep
    (hp : ∀ x y, p x = true → p y = true → lt y x = false) (l : List T) (j : Nat)
    (hj : j + 1 < l.length) :
    (bubbleStep lt l j).filter p = l.filter p := by
  unfold bubbleStep
  split
  · rename_i hsw
    apply filter_swap_adj p l j hj
    rintro ⟨h1, h2⟩
    rw [hp _ _ h1 h2] at hsw
    cases hsw
  · rfl

theorem filter_bubblePass
    (hp : ∀ x y, p x = true → p y = true → lt y x = false) (s : Nat) :
    ∀ (l : List T) (j : Nat), j + s < l.length →
    (bubblePass lt l j s).filter p = l.filter p := by
  induction s with
  | zero => intro l j _; rfl
  | succ s ih =>
    intro l j hlen
    show (bubblePass lt (bubbleStep lt l j) (j+1) s).filter p = l.filter p
    rw [ih (bubbleStep lt l j) (j+1) (by rw [length_bubbleStep]; omega),
      filter_bubbleStep lt p hp l j (by omega)]

theorem filter_bubbleOuter
    (hp : ∀ x y, p x = true → p y = true → lt y x = false) (r : Nat) :
    ∀ (l : List T), r < l.length →
    (bubbleOuter lt l r).filter p = l.filter p := by
  induction r with
  | zero => intro l _; rfl
  | succ r ih =>
    intro l hr
    show (bubbleOuter lt (bubblePass lt l 0 (r+1)) r).filter p = l.filter p
    rw [ih _ (by rw [length_bubblePass]; omega),
      filter_bubblePass lt p hp (r+1) l 0 (by omega)]

theorem filter_bubbleSortL
    (hp : ∀ x y, p x = true → p y = true → lt y x = false) (l : List T) :
    (bubbleSortL lt l).filter p = l.filter p := by
  cases hl : l.length with
  | zero => unfold bubbleSortL; rw [hl]; rfl
  | succ m =>
    unfold bubbleSortL
    rw [hl]
    exact filter_bubbleOuter lt p hp (m+1-1) l (by omega)

end BubbleStability

/-! ### Selection sort (main.cpp:91-105) -/

section SelectionSort

variable {T : Type} [Inhabited T] (lt : T → T → Bool)

/-- Selection sort's inner loop (main.cpp:96-100): scan positions
`j, ..., j+s-1`, keeping the index of the least element seen so far; a call
with `j = i+1` and `s = n - (i+1)` is the source's `for (j = i+1; j < n; j++)`. -/
def selMin (l : List T) (minIdx j : Nat) : Nat → Nat
  | 0 => minIdx
  | s+1 =>
    selMin l (if lt (l.getD j default) (l.getD minIdx default) then j else minIdx) (j+1) s

/-- Selection sort's outer loop (main.cpp:94-104); the counter is the number
of remaining iterations of `for (i = 0; i < n - 1; i++)`.  The swap is
guarded by `min_idx != i` (main.cpp:101-103). -/
def selOuter (l : List T) (n i : Nat) : Nat → List T
  | 0 => l
  | r+1 =>
    let m := selMin lt l i (i+1) (n - (i+1))
    selOuter (if m ≠ i then listSwap l i m else l) n (i+1) r

/-- Embedding of `selectionSort` (main.cpp:91-105). -/
def selectionSortL (l : List T) : List T := selOuter lt l l.length 0 (l.length - 1)

theorem selMin_spec (hasym : ∀ a b, lt a b = true → lt b a = false)
    (htrans : ∀ a b c, lt a b = true → lt b c = true → lt a c = true)
    (hconn : ∀ a c, lt a c = true → ∀ b, lt a b = true ∨ lt b c = true)
    (s : Nat) : ∀ (l : List T) (minIdx j : Nat),
    (selMin lt l minIdx j s = minIdx ∨
      (j ≤ selMin lt l minIdx j s ∧ selMin lt l minIdx j s < j + s)) ∧
    ∀ k, (k = minIdx ∨ (j ≤ k ∧ k < j + s)) →
      lt (l.getD k default) (l.getD (selMin lt l minIdx j s) default) = false := by
  induction s with
  | zero =>
    intro l minIdx j
    constructor
    · exact Or.inl rfl
    · intro k hk
      rcases hk with rfl | ⟨h1, h2⟩
      · exact lt_irrefl_of_asymm lt hasym _
      · omega
  | succ s ih =>
    intro l minIdx j
    by_cases hlt : lt (l.getD j default) (l.getD minIdx default) = true
    · have hunf : selMin lt l minIdx j (s+1) = selMin lt l j (j+1) s := by
        show selMin lt l (if lt (l.getD j default) (l.getD minIdx default) then j else minIdx)
          (j+1) s = _
        rw [if_pos hlt]
      rw [hunf]
      obtain ⟨ha, hb⟩ := ih l j (j+1)
      constructor
      · rcases ha with h | h
        · exact Or.inr ⟨by omega, by omega⟩
        · exact Or.inr ⟨by omega, by omega⟩
      · intro k hk
        rcases hk with rfl | ⟨h1, h2⟩
        · cases hc : lt (l.getD k default) (l.getD (selMin lt l j (j+1) s) default) with
          | false => rfl
          | true =>
            have hjm := hb j (Or.inl rfl)
            have := htrans _ _ _ hlt hc
            rw [hjm] at this
            cases this
        · rcases Nat.eq_or_lt_of_le h1 with heq | h1'
          · rw [← heq]
            exact hb j (Or.inl rfl)
          · exact hb k (Or.inr ⟨by omega, by omega⟩)
    · have hlt' : lt (l.getD j default) (l.getD minIdx default) = false := by
        simpa using hlt
      have hunf : selMin lt l minIdx j (s+1) = selMin lt l minIdx (j+1) s := by
        show selMin lt l (if lt (l.getD j default) (l.getD minIdx default) then j else minIdx)
          (j+1) s = _
        rw [if_neg hlt]
      rw [hunf]
      obtain ⟨ha, hb⟩ := ih l minIdx (j+1)
      constructor
      · rcases ha with h | h
        · exact Or.inl h
        · exact Or.inr ⟨by omega, by omega⟩
      · intro k hk
        rcases hk with rfl | ⟨h1, h2⟩
        · exact hb k (Or.inl rfl)
        · rcases Nat.eq_or_lt_of_le h1 with heq | h1'
          · rw [← heq]
            cases hc : lt (l.getD j default) (l.getD (selMin lt l minIdx (j+1) s) default) with
            | false => rfl
            | true =>
              rcases hconn _ _ hc (l.getD minIdx default) with h | h
              · rw [hlt'] at h; cases h
              · rw [hb minIdx (Or.inl rfl)] at h; cases h
          · exact hb k (Or.inr ⟨by omega, by omega⟩)

theorem length_selOuter (r : Nat) : ∀ (l : List T) (n i : Nat),
    (selOuter lt l n i r).length = l.length := by
  induction r with
  | zero => intro l n i; rfl
  | succ r ih =>
    intro l n i
    show (selOuter lt (if selMin lt l i (i+1) (n - (i+1)) ≠ i
      then listSwap l i (selMin lt l i (i+1) (n - (i+1))) else l) n (i+1) r).length = _
    rw [ih]
    split
    · exact length_listSwap l i _
    · rfl

theorem selOuter_perm (r : Nat) : ∀ (l : List T) (n i : Nat),
    List.Perm (selOuter lt l n i r) l := by
  induction r with
  | zero => intro l n i; exact List.Perm.refl l
  | succ r ih =>
    intro l n i
    show List.Perm (selOuter lt (if selMin lt l i (i+1) (n - (i+1)) ≠ i
      then listSwap l i (selMin lt l i (i+1) (n - (i+1))) else l) n (i+1) r) l
    refine (ih _ n (i+1)).trans ?_
    split
    · exact listSwap_perm l i _
    · exact List.Perm.refl l

theorem selOuter_sorted_aux (hasym : ∀ a b, lt a b = true → lt b a = false)
    (htrans : ∀ a b c, lt a b = true → lt b c = true → lt a c = true)
    (hconn : ∀ a c, lt a c = true → ∀ b, lt a b = true ∨ lt b c = true) :
    ∀ (r : Nat) (l : List T) (n i : Nat), n = l.length → i + r + 1 = n →
    (∀ p q, p < q → q < n → p < i → lt (l.getD q default) (l.getD p default) = false) →
    ∀ p q, p < q → q < n →
      lt ((selOuter lt l n i r).getD q default)
        ((selOuter lt l n i r).getD p default) = false := by
  intro r
  induction r with
  | zero =>
    intro l n i hn hi hInv p q hpq hq
    exact hInv p q hpq hq (by omega)
  | succ r ih =>
    intro l n i hn hi hInv p q hpq hq
    obtain ⟨hma, hmb⟩ := selMin_spec lt hasym htrans hconn (n - (i+1)) l i (i+1)
    set m := selMin lt l i (i+1) (n - (i+1)) with hm
    have hmlow : i ≤ m := by rcases hma with h | h; omega; omega
    have hmhigh : m < n := by rcases hma with h | h; omega; omega
    have hin : i < n := by omega
    have hmemb : ∀ k, i ≤ k → k < n →
        lt (l.getD k default) (l.getD m default) = false := by
      intro k hk1 hk2
      rcases Nat.eq_or_lt_of_le hk1 with heq | hk1'
      · rw [← heq]
        exact hmb i (Or.inl rfl)
      · exact hmb k (Or.inr ⟨by omega, by omega⟩)
    have hl' : ∀ (l' : List T), l'.length = l.length →
        (∀ k, k < i → l'.getD k default = l.getD k default) →
        (l'.getD i default = l.getD m default) →
        (∀ q, i < q → q < n → ∃ q', i ≤ q' ∧ q' < n ∧
          l'.getD q default = l.getD q' default) →
        ∀ p q, p < q → q < n →
          lt ((selOuter lt l' n (i+1) r).getD q default)
            ((selOuter lt l' n (i+1) r).getD p default) = false := by
      intro l' hlen hlow hati habove
      apply ih l' n (i+1) (by omega) (by omega)
      intro p q hpq hq hpi
      rcases Nat.lt_or_ge p i with hpi' | hpi'
      · rw [hlow p hpi']
        rcases Nat.lt_or_ge q i with hq' | hq'
        · rw [hlow q hq']
          exact hInv p q hpq hq hpi'
        · rcases Nat.eq_or_lt_of_le hq' with rfl | hq''
          · rw [hati]
            exact hInv p m (by omega) (by omega) hpi'
          · obtain ⟨q', hq'1, hq'2, hq'3⟩ := habove q (by omega) hq
            rw [hq'3]
            exact hInv p q' (by omega) hq'2 hpi'
      · have hpieq : p = i := by omega
        rw [hpieq, hati]
        rcases Nat.eq_or_lt_of_le (show i ≤ q by omega) with rfl | hq''
        · omega
        · obtain ⟨q', hq'1, hq'2, hq'3⟩ := habove q (by omega) hq
          rw [hq'3]
          exact hmemb q' hq'1 hq'2
    have hred : selOuter lt l n i (r+1)
        = selOuter lt (if m ≠ i then listSwap l i m else l) n (i+1) r := rfl
    rw [hred]
    by_cases hmi : m = i
    · rw [if_neg (by omega)]
      exact hl' l rfl (fun k _ => rfl) (by rw [hmi])
        (fun q hq1 hq2 => ⟨q, by omega, hq2, rfl⟩) p q hpq hq
    · rw [if_pos hmi]
      refine hl' (listSwap l i m) (length_listSwap l i m) ?_ ?_ ?_ p q hpq hq
      · intro k hk
        exact getD_listSwap_other l (by omega) (by omega) default
      · exact getD_listSwap_fst l (by omega) (by omega) default
      · intro q' hq1 hq2
        rcases eq_or_ne q' m with heq | hqm
        · rw [heq]
          exact ⟨i, by omega, by omega, getD_listSwap_snd l (by omega) (by omega) default⟩
        · exact ⟨q', by omega, hq2, getD_listSwap_other l (by omega) hqm default⟩

theorem selectionSortL_perm (l : List T) : List.Perm (selectionSortL lt l) l :=
  selOuter_perm lt (l.length - 1) l l.length 0

theorem length_selectionSortL (l : List T) : (selectionSortL lt l).length = l.length :=
  length_selOuter lt (l.length - 1) l l.length 0

theorem selectionSortL_sorted_idx (hasym : ∀ a b, lt a b = true → lt b a = false)
    (htrans : ∀ a b c, lt a b = true → lt b c = true → lt a c = true)
    (hconn : ∀ a c, lt a c = true → ∀ b, lt a b = true ∨ lt b c = true)
    (l : List T) : ∀ p q, p < q → q < l.length →
    lt ((selectionSortL lt l).getD q default)
      ((selectionSortL lt l).getD p default) = false := by
  intro p q hpq hql
  cases hl : l.length with
  | zero => omega
  | succ n =>
    unfold selectionSortL
    rw [hl]
    exact selOuter_sorted_aux lt hasym htrans hconn (n+1-1) l (n+1) 0 hl.symm (by omega)
      (fun p q _ _ h => by omega) p q hpq (by omega)
end SelectionSort

/-! ### Heap sort (main.cpp:131-159) -/

section HeapSort

variable {T : Type} [Inhabited T] (lt : T → T → Bool)

/-- The `largest` index computed by `heapify` (main.cpp:133-138): start from
the root `i`, move to the left child if `arr[left] > arr[largest]` (indices
checked against the heap size `n`), then to the right child likewise. -/
def heapLargest (l : List T) (n i : Nat) : Nat :=
  let left := 2*i+1
  let right := 2*i+2
  let largest1 :=
    if left < n ∧ lt (l.getD i default) (l.getD left default) = true then left else i
  if right < n ∧ lt (l.getD largest1 default) (l.getD right default) = true then right
  else largest1

theorem heapLargest_eq (l : List T) (n i : Nat) : heapLargest lt l n i =
    (if 2*i+2 < n ∧ lt (l.getD (if 2*i+1 < n ∧ lt (l.getD i default)
          (l.getD (2*i+1) default) = true then 2*i+1 else i) default)
        (l.getD (2*i+2) default) = true then 2*i+2
     else if 2*i+1 < n ∧ lt (l.getD i default) (l.getD (2*i+1) default) = true
       then 2*i+1 else i) := rfl

theorem heapLargest_spec (l : List T) (n i : Nat) :
    heapLargest lt l n i = i ∨
    (heapLargest lt l n i = 2*i+1 ∧ 2*i+1 < n) ∨
    (heapLargest lt l n i = 2*i+2 ∧ 2*i+2 < n) := by
  rw [heapLargest_eq]
  by_cases h1 : 2*i+1 < n ∧ lt (l.getD i default) (l.getD (2*i+1) default) = true
  · simp only [if_pos h1]
    by_cases h2 : 2*i+2 < n ∧
        lt (l.getD (2*i+1) default) (l.getD (2*i+2) default) = true
    · rw [if_pos h2]
      exact Or.inr (Or.inr ⟨rfl, h2.1⟩)
    · rw [if_neg h2]
      exact Or.inr (Or.inl ⟨rfl, h1.1⟩)
  · simp only [if_neg h1]
    by_cases h2 : 2*i+2 < n ∧ lt (l.getD i default) (l.getD (2*i+2) default) = true
    · rw [if_pos h2]
      exact Or.inr (Or.inr ⟨rfl, h2.1⟩)
    · rw [if_neg h2]
      exact Or.inl rfl

theorem heapLargest_lt_bounds (l : List T) (n i : Nat)
    (h : heapLargest lt l n i ≠ i) :
    i < heapLargest lt l n i ∧ heapLargest lt l n i < n := by
  rcases heapLargest_spec lt l n i with h' | ⟨h', hn⟩ | ⟨h', hn⟩
  · exact absurd h' h
  · omega
  · omega

/-- Embedding of the recursive `heapify` (main.cpp:131-144).  Each recursive
call moves to a strictly larger root index that is still below `n`, so the
measure `n - i` decreases. -/
def heapifyL (l : List T) (n i : Nat) : List T :=
  if h : heapLargest lt l n i ≠ i then
    heapifyL (listSwap l i (heapLargest lt l n i)) n (heapLargest lt l n i)
  else l
termination_by n - i
decreasing_by
  have := heapLargest_lt_bounds lt l n i h
  omega

/-- Fuel-indexed variant of `heapify`, structurally recursive; `none` means
the fuel ran out before the sift-down reached its resting place. -/
def heapifyFuel (fuel : Nat) (l : List T) (n i : Nat) : Option (List T) :=
  match fuel with
  | 0 => none
  | fuel+1 =>
    if heapLargest lt l n i ≠ i then
      heapifyFuel fuel (listSwap l i (heapLargest lt l n i)) n (heapLargest lt l n i)
    else some l

theorem heapifyFuel_spec : ∀ (fuel : Nat) (l : List T) (n i : Nat), n - i < fuel →
    heapifyFuel lt fuel l n i = some (heapifyL lt l n i) := by
  intro fuel
  induction fuel with
  | zero => intro l n i h; omega
  | succ fuel ih =>
    intro l n i h
    by_cases hne : heapLargest lt l n i ≠ i
    · have h1 : heapifyFuel lt (fuel+1) l n i
          = heapifyFuel lt fuel (listSwap l i (heapLargest lt l n i)) n
            (heapLargest lt l n i) := by
        show (if heapLargest lt l n i ≠ i then _ else some l) = _
        rw [if_pos hne]
      have h2 : heapifyL lt l n i
          = heapifyL lt (listSwap l i (heapLargest lt l n i)) n (heapLargest lt l n i) := by
        conv_lhs => unfold heapifyL
        rw [dif_pos hne]
      rw [h1, h2]
      have hb := heapLargest_lt_bounds lt l n i hne
      exact ih _ n _ (by omega)
    · have h1 : heapifyFuel lt (fuel+1) l n i = some l := by
        show (if heapLargest lt l n i ≠ i then _ else some l) = _
        rw [if_neg hne]
      have h2 : heapifyL lt l n i = l := by
        conv_lhs => unfold heapifyL
        rw [dif_neg hne]
      rw [h1, h2]

/-- Relation `HeapDesc i j`: index `j` lies in the binary-heap subtree rooted at `i`
(the children of node `k` are `2k+1` and `2k+2`). -/
inductive HeapDesc : Nat → Nat → Prop
  | refl (i : Nat) : HeapDesc i i
  | left {i j : Nat} : HeapDesc i j → HeapDesc i (2*j+1)
  | right {i j : Nat} : HeapDesc i j → HeapDesc i (2*j+2)

theorem HeapDesc.le {i j : Nat} (h : HeapDesc i j) : i ≤ j := by
  induction h with
  | refl => exact Nat.le_refl _
  | left _ ih => omega
  | right _ ih => omega

theorem HeapDesc.trans {i j k : Nat} (h1 : HeapDesc i j) (h2 : HeapDesc j k) :
    HeapDesc i k := by
  induction h2 with
  | refl => exact h1
  | left _ ih => exact HeapDesc.left ih
  | right _ ih => exact HeapDesc.right ih

theorem HeapDesc.ge_child {i j : Nat} (h : HeapDesc i j) : j = i ∨ 2*i+1 ≤ j := by
  induction h with
  | refl => exact Or.inl rfl
  | left h ih =>
    have := h.le
    omega
  | right h ih =>
    have := h.le
    omega

theorem heapDesc_zero : ∀ j, HeapDesc 0 j := by
  intro j
  induction j using Nat.strong_induction_on with
  | _ j ih =>
    match j with
    | 0 => exact HeapDesc.refl 0
    | j+1 =>
      have hp : HeapDesc 0 (j / 2) := ih (j / 2) (by omega)
      rcases Nat.even_or_odd j with ⟨m, hm⟩ | ⟨m, hm⟩
      · have : j + 1 = 2 * (j / 2) + 1 := by omega
        rw [this]
        exact HeapDesc.left hp
      · have : j + 1 = 2 * (j / 2) + 2 := by omega
        rw [this]
        exact HeapDesc.right hp

theorem HeapDesc.child_rev {i c j : Nat} (h : HeapDesc i c) (hci : c ≠ i)
    (hc : c = 2*j+1 ∨ c = 2*j+2) : HeapDesc i j := by
  cases h with
  | refl => exact absurd rfl hci
  | left h' =>
    rename_i j'
    have : j = j' := by omega
    rw [this]
    exact h'
  | right h' =>
    rename_i j'
    have : j = j' := by omega
    rw [this]
    exact h'

theorem heapifyL_length : ∀ (fuel : Nat) (l : List T) (n i : Nat), n - i ≤ fuel →
    (heapifyL lt l n i).length = l.length := by
  intro fuel
  induction fuel with
  | zero =>
    intro l n i h
    unfold heapifyL
    split
    · rename_i hne
      have := heapLargest_lt_bounds lt l n i hne
      omega
    · rfl
  | succ fuel ih =>
    intro l n i h
    unfold heapifyL
    split
    · rename_i hne
      have hb := heapLargest_lt_bounds lt l n i hne
      rw [ih _ n _ (by omega), length_listSwap]
    · rfl

theorem heapifyL_length' (l : List T) (n i : Nat) :
    (heapifyL lt l n i).length = l.length :=
  heapifyL_length lt (n - i) l n i (Nat.le_refl _)

theorem heapifyL_perm : ∀ (fuel : Nat) (l : List T) (n i : Nat), n - i ≤ fuel →
    List.Perm (heapifyL lt l n i) l := by
  intro fuel
  induction fuel with
  | zero =>
    intro l n i h
    unfold heapifyL
    split
    · rename_i hne
      have := heapLargest_lt_bounds lt l n i hne
      omega
    · exact List.Perm.refl _
  | succ fuel ih =>
    intro l n i h
    unfold heapifyL
    split
    · rename_i hne
      have hb := heapLargest_lt_bounds lt l n i hne
      exact (ih _ n _ (by omega)).trans (listSwap_perm l i _)
    · exact List.Perm.refl _

theorem heapifyL_perm' (l : List T) (n i : Nat) :
    List.Perm (heapifyL lt l n i) l :=
  heapifyL_perm lt (n - i) l n i (Nat.le_refl _)

theorem heapLargest_desc (l : List T) (n i : Nat) :
    HeapDesc i (heapLargest lt l n i) := by
  rcases heapLargest_spec lt l n i with h | ⟨h, _⟩ | ⟨h, _⟩ <;> rw [h]
  · exact HeapDesc.refl i
  · exact HeapDesc.left (HeapDesc.refl i)
  · exact HeapDesc.right (HeapDesc.refl i)

theorem heapifyL_outside : ∀ (fuel : Nat) (l : List T) (n i : Nat), n - i ≤ fuel →
    ∀ k, (¬ HeapDesc i k ∨ n ≤ k) →
    (heapifyL lt l n i).getD k default = l.getD k default := by
  intro fuel
  induction fuel with
  | zero =>
    intro l n i h k hk
    unfold heapifyL
    split
    · rename_i hne
      have := heapLargest_lt_bounds lt l n i hne
      omega
    · rfl
  | succ fuel ih =>
    intro l n i h k hk
    unfold heapifyL
    split
    · rename_i hne
      have hb := heapLargest_lt_bounds lt l n i hne
      have hdesc : HeapDesc i (heapLargest lt l n i) := heapLargest_desc lt l n i
      have hki : k ≠ i := by
        rcases hk with hk | hk
        · intro hc; rw [hc] at hk; exact hk (HeapDesc.refl i)
        · omega
      have hkg : k ≠ heapLargest lt l n i := by
        rcases hk with hk | hk
        · intro hc; rw [hc] at hk; exact hk hdesc
        · omega
      rw [ih _ n _ (by omega) k ?_, getD_listSwap_other l hki hkg]
      rcases hk with hk | hk
      · exact Or.inl (fun hc => hk (hdesc.trans hc))
      · exact Or.inr hk
    · rfl

end HeapSort

section HeapSortProofs

variable {T : Type} [Inhabited T] (lt : T → T → Bool)

theorem nlt_trans (hconn : ∀ a c, lt a c = true → ∀ b, lt a b = true ∨ lt b c = true)
    {a b c : T} (h1 : lt a b = false) (h2 : lt b c = false) : lt a c = false := by
  cases hc : lt a c with
  | false => rfl
  | true =>
    rcases hconn a c hc b with h | h
    · rw [h1] at h; cases h
    · rw [h2] at h; cases h

/-- The max-heap condition at node `j` of the size-`n` heap prefix:
the node is not strictly below either of its in-range children. -/
def HeapCond (l : List T) (n j : Nat) : Prop :=
  (2*j+1 < n → lt (l.getD j default) (l.getD (2*j+1) default) = false) ∧
  (2*j+2 < n → lt (l.getD j default) (l.getD (2*j+2) default) = false)

theorem heapCond_congr {l l' : List T} {n j : Nat}
    (h0 : l'.getD j default = l.getD j default)
    (h1 : 2*j+1 < n → l'.getD (2*j+1) default = l.getD (2*j+1) default)
    (h2 : 2*j+2 < n → l'.getD (2*j+2) default = l.getD (2*j+2) default)
    (h : HeapCond lt l n j) : HeapCond lt l' n j :=
  ⟨fun hc => by rw [h0, h1 hc]; exact h.1 hc, fun hc => by rw [h0, h2 hc]; exact h.2 hc⟩

theorem heap_root_max (hasym : ∀ a b, lt a b = true → lt b a = false)
    (hconn : ∀ a c, lt a c = true → ∀ b, lt a b = true ∨ lt b c = true)
    {l : List T} {n m : Nat}
    (hcond : ∀ j, HeapDesc m j → j < n → HeapCond lt l n j) :
    ∀ k, HeapDesc m k → k < n → lt (l.getD m default) (l.getD k default) = false := by
  intro k hk
  induction hk with
  | refl => intro _; exact lt_irrefl_of_asymm lt hasym _
  | left h ih =>
    rename_i j'
    intro hkn
    have hj'n : j' < n := by omega
    exact nlt_trans lt hconn (ih hj'n) ((hcond j' h hj'n).1 hkn)
  | right h ih =>
    rename_i j'
    intro hkn
    have hj'n : j' < n := by omega
    exact nlt_trans lt hconn (ih hj'n) ((hcond j' h hj'n).2 hkn)

theorem heapifyL_self {l : List T} {n i : Nat} (heq : heapLargest lt l n i = i) :
    heapifyL lt l n i = l := by
  conv_lhs => unfold heapifyL
  rw [dif_neg (fun h => h heq)]

theorem heapCond_of_largest_self {l : List T} {n i : Nat}
    (heq : heapLargest lt l n i = i) : HeapCond lt l n i := by
  rw [heapLargest_eq] at heq
  by_cases h1 : 2*i+1 < n ∧ lt (l.getD i default) (l.getD (2*i+1) default) = true
  · simp only [if_pos h1] at heq
    by_cases h2 : 2*i+2 < n ∧
        lt (l.getD (2*i+1) default) (l.getD (2*i+2) default) = true
    · rw [if_pos h2] at heq; omega
    · rw [if_neg h2] at heq; omega
  · simp only [if_neg h1] at heq
    by_cases h2 : 2*i+2 < n ∧ lt (l.getD i default) (l.getD (2*i+2) default) = true
    · rw [if_pos h2] at heq; omega
    · constructor
      · intro hc
        cases hb : lt (l.getD i default) (l.getD (2*i+1) default) with
        | false => rfl
        | true => exact absurd ⟨hc, hb⟩ h1
      · intro hc
        cases hb : lt (l.getD i default) (l.getD (2*i+2) default) with
        | false => rfl
        | true => exact absurd ⟨hc, hb⟩ h2

theorem heapLargest_gt
    (htrans : ∀ a b c, lt a b = true → lt b c = true → lt a c = true)
    {l : List T} {n i : Nat} (hne : heapLargest lt l n i ≠ i) :
    lt (l.getD i default) (l.getD (heapLargest lt l n i) default) = true := by
  rw [heapLargest_eq] at hne ⊢
  by_cases h1 : 2*i+1 < n ∧ lt (l.getD i default) (l.getD (2*i+1) default) = true
  · simp only [if_pos h1] at hne ⊢
    by_cases h2 : 2*i+2 < n ∧
        lt (l.getD (2*i+1) default) (l.getD (2*i+2) default) = true
    · rw [if_pos h2]
      exact htrans _ _ _ h1.2 h2.2
    · rw [if_neg h2]
      exact h1.2
  · simp only [if_neg h1] at hne ⊢
    by_cases h2 : 2*i+2 < n ∧ lt (l.getD i default) (l.getD (2*i+2) default) = true
    · rw [if_pos h2]
      exact h2.2
    · rw [if_neg h2] at hne
      exact absurd rfl hne

theorem heapLargest_sibling (hasym : ∀ a b, lt a b = true → lt b a = false)
    (htrans : ∀ a b c, lt a b = true → lt b c = true → lt a c = true)
    {l : List T} {n i : Nat} (hne : heapLargest lt l n i ≠ i) :
    ∀ c, (c = 2*i+1 ∨ c = 2*i+2) → c < n → c ≠ heapLargest lt l n i →
    lt (l.getD (heapLargest lt l n i) default) (l.getD c default) = false := by
  intro c hc hcn hcg
  rw [heapLargest_eq] at hne hcg ⊢
  by_cases h1 : 2*i+1 < n ∧ lt (l.getD i default) (l.getD (2*i+1) default) = true
  · simp only [if_pos h1] at hne hcg ⊢
    by_cases h2 : 2*i+2 < n ∧
        lt (l.getD (2*i+1) default) (l.getD (2*i+2) default) = true
    · rw [if_pos h2] at hcg ⊢
      have hc1 : c = 2*i+1 := by omega
      rw [hc1]
      exact hasym _ _ h2.2
    · rw [if_neg h2] at hcg ⊢
      have hc2 : c = 2*i+2 := by omega
      rw [hc2]
      cases hb : lt (l.getD (2*i+1) default) (l.getD (2*i+2) default) with
      | false => rfl
      | true => exact absurd ⟨by omega, hb⟩ h2
  · simp only [if_neg h1] at hne hcg ⊢
    by_cases h2 : 2*i+2 < n ∧ lt (l.getD i default) (l.getD (2*i+2) default) = true
    · rw [if_pos h2] at hcg ⊢
      have hc1 : c = 2*i+1 := by omega
      rw [hc1]
      cases hb : lt (l.getD (2*i+2) default) (l.getD (2*i+1) default) with
      | false => rfl
      | true => exact absurd ⟨by omega, htrans _ _ _ h2.2 hb⟩ h1
    · rw [if_neg h2] at hne
      exact absurd rfl hne

end HeapSortProofs

section HeapifyMain

variable {T : Type} [Inhabited T] (lt : T → T → Bool)

theorem heapifyL_main (hasym : ∀ a b, lt a b = true → lt b a = false)
    (htrans : ∀ a b c, lt a b = true → lt b c = true → lt a c = true)
    (hconn : ∀ a c, lt a c = true → ∀ b, lt a b = true ∨ lt b c = true) :
    ∀ (fuel : Nat) (l : List T) (n i : Nat), n - i ≤ fuel → n ≤ l.length →
    (∀ j, HeapDesc i j → j ≠ i → j < n → HeapCond lt l n j) →
    (∀ j, HeapDesc i j → j < n → HeapCond lt (heapifyL lt l n i) n j) ∧
    (∀ k, HeapDesc i k → k < n → ∃ k', HeapDesc i k' ∧ k' < n ∧
      (heapifyL lt l n i).getD k default = l.getD k' default) := by
  intro fuel
  induction fuel with
  | zero =>
    intro l n i hf hn hpre
    have heq : heapLargest lt l n i = i := by
      by_contra hne
      have := heapLargest_lt_bounds lt l n i hne
      omega
    rw [heapifyL_self lt heq]
    constructor
    · intro j hdesc hj
      rcases eq_or_ne j i with heqj | hnej
      · rw [heqj]; exact heapCond_of_largest_self lt heq
      · exact hpre j hdesc hnej hj
    · intro k hdesc hk
      exact ⟨k, hdesc, hk, rfl⟩
  | succ fuel ih =>
    intro l n i hf hn hpre
    by_cases hne : heapLargest lt l n i = i
    · rw [heapifyL_self lt hne]
      constructor
      · intro j hdesc hj
        rcases eq_or_ne j i with heqj | hnej
        · rw [heqj]; exact heapCond_of_largest_self lt hne
        · exact hpre j hdesc hnej hj
      · intro k hdesc hk
        exact ⟨k, hdesc, hk, rfl⟩
    · obtain ⟨hig, hgn⟩ := heapLargest_lt_bounds lt l n i hne
      have hdescg : HeapDesc i (heapLargest lt l n i) := heapLargest_desc lt l n i
      have hgchild : heapLargest lt l n i = 2*i+1 ∨ heapLargest lt l n i = 2*i+2 := by
        rcases heapLargest_spec lt l n i with h | ⟨h, _⟩ | ⟨h, _⟩
        · exact absurd h hne
        · exact Or.inl h
        · exact Or.inr h
      have hgt : lt (l.getD i default) (l.getD (heapLargest lt l n i) default) = true :=
        heapLargest_gt lt htrans hne
      have hsib := heapLargest_sibling lt hasym htrans hne
      set g := heapLargest lt l n i with hg
      have hstep : heapifyL lt l n i = heapifyL lt (listSwap l i g) n g := by
        conv_lhs => unfold heapifyL
        rw [dif_pos hne]
      have hil : i < l.length := by omega
      have hgl : g < l.length := by omega
      have hlen2 : (listSwap l i g).length = l.length := length_listSwap l i g
      have hswap_i : (listSwap l i g).getD i default = l.getD g default :=
        getD_listSwap_fst l hil hgl default
      have hswap_g : (listSwap l i g).getD g default = l.getD i default :=
        getD_listSwap_snd l hil hgl default
      have hpre2 : ∀ j, HeapDesc g j → j ≠ g → j < n →
          HeapCond lt (listSwap l i g) n j := by
        intro j hdj hjne hjn
        have hgj : g < j := by
          have := hdj.le
          omega
        have hji : j ≠ i := by omega
        refine heapCond_congr lt ?_ ?_ ?_ (hpre j (hdescg.trans hdj) (by omega) hjn)
        · exact getD_listSwap_other l hji (by omega) default
        · exact fun _ => getD_listSwap_other l (by omega) (by omega) default
        · exact fun _ => getD_listSwap_other l (by omega) (by omega) default
      obtain ⟨R1, R2⟩ := ih (listSwap l i g) n g (by omega) (by rw [hlen2]; omega) hpre2
      have hcondg : ∀ j, HeapDesc g j → j < n → HeapCond lt l n j := by
        intro j hdj hjn
        rcases eq_or_ne j g with heqj | hnej
        · rw [heqj]
          exact hpre g hdescg (by omega) hgn
        · have := hdj.le
          exact hpre j (hdescg.trans hdj) (by omega) hjn
      have hrootg : ∀ k, HeapDesc g k → k < n →
          lt (l.getD g default) (l.getD k default) = false :=
        heap_root_max lt hasym hconn hcondg
      have hvalg : ∀ k, HeapDesc g k → k < n →
          (heapifyL lt (listSwap l i g) n g).getD k default = l.getD i default ∨
          ∃ k', HeapDesc g k' ∧ k' < n ∧
            (heapifyL lt (listSwap l i g) n g).getD k default = l.getD k' default := by
        intro k hdk hkn
        obtain ⟨k', hk'd, hk'n, hk'e⟩ := R2 k hdk hkn
        rcases eq_or_ne k' g with heq' | hne'
        · left
          rw [hk'e, heq', hswap_g]
        · right
          have : g < k' := by
            have := hk'd.le
            omega
          exact ⟨k', hk'd, hk'n, by
            rw [hk'e, getD_listSwap_other l (by omega) hne' default]⟩
      have hler : ∀ k, HeapDesc g k → k < n →
          lt (l.getD g default)
            ((heapifyL lt (listSwap l i g) n g).getD k default) = false := by
        intro k hdk hkn
        rcases hvalg k hdk hkn with h | ⟨k', hk'd, hk'n, hval⟩
        · rw [h]
          exact hasym _ _ hgt
        · rw [hval]
          exact hrootg k' hk'd hk'n
      have hri : (heapifyL lt (listSwap l i g) n g).getD i default
          = l.getD g default := by
        rw [heapifyL_outside lt (n - g) _ n g (Nat.le_refl _) i
          (Or.inl (fun hc => by have := hc.le; omega)), hswap_i]
      have huntouched : ∀ k, ¬ HeapDesc g k → k ≠ i →
          (heapifyL lt (listSwap l i g) n g).getD k default = l.getD k default := by
        intro k hk hki
        have hkg : k ≠ g := fun hc => hk (by rw [hc]; exact HeapDesc.refl g)
        rw [heapifyL_outside lt (n - g) _ n g (Nat.le_refl _) k (Or.inl hk),
          getD_listSwap_other l hki hkg default]
      have hgge : 2*i+1 ≤ g := by
        rcases hgchild with h' | h' <;> omega
      have hnotdesc_sib : ∀ c, (c = 2*i+1 ∨ c = 2*i+2) → c ≠ g → ¬ HeapDesc g c := by
        intro c hc hcg hdc
        rcases hdc.ge_child with h' | h'
        · exact hcg h'
        · rcases hc with h'' | h'' <;> omega
      rw [hstep]
      constructor
      · intro j hdij hjn
        by_cases hdgj : HeapDesc g j
        · exact R1 j hdgj hjn
        · rcases eq_or_ne j i with heqj | hnej
          · rw [heqj]
            constructor
            · intro hc1
              rw [hri]
              by_cases hcg : 2*i+1 = g
              · rw [hcg]
                exact hler g (HeapDesc.refl g) hgn
              · rw [huntouched (2*i+1) (hnotdesc_sib _ (Or.inl rfl) hcg) (by omega)]
                exact hsib (2*i+1) (Or.inl rfl) hc1 hcg
            · intro hc2
              rw [hri]
              by_cases hcg : 2*i+2 = g
              · rw [hcg]
                exact hler g (HeapDesc.refl g) hgn
              · rw [huntouched (2*i+2) (hnotdesc_sib _ (Or.inr rfl) hcg) (by omega)]
                exact hsib (2*i+2) (Or.inr rfl) hc2 hcg
          · have hij : i < j := by
              have := hdij.le
              omega
            have hchild_ne_g : ∀ c, (c = 2*j+1 ∨ c = 2*j+2) → c ≠ g := by
              intro c hc hcg
              rcases hgchild with h' | h' <;> rcases hc with h'' | h'' <;> omega
            have hchild_ndesc : ∀ c, (c = 2*j+1 ∨ c = 2*j+2) → ¬ HeapDesc g c := by
              intro c hc hdc
              exact hdgj (hdc.child_rev (hchild_ne_g c hc) hc)
            refine heapCond_congr lt ?_ ?_ ?_ (hpre j hdij hnej hjn)
            · exact huntouched j hdgj hnej
            · exact fun _ => huntouched (2*j+1) (hchild_ndesc _ (Or.inl rfl)) (by omega)
            · exact fun _ => huntouched (2*j+2) (hchild_ndesc _ (Or.inr rfl)) (by omega)
      · intro k hdik hkn
        by_cases hdgk : HeapDesc g k
        · rcases hvalg k hdgk hkn with h | ⟨k', hk'd, hk'n, hval⟩
          · exact ⟨i, HeapDesc.refl i, by omega, h⟩
          · exact ⟨k', hdescg.trans hk'd, hk'n, hval⟩
        · rcases eq_or_ne k i with heqk | hnek
          · rw [heqk]
            exact ⟨g, hdescg, hgn, hri⟩
          · exact ⟨k, hdik, hkn, huntouched k hdgk hnek⟩

end HeapifyMain

section HeapSortLoops

variable {T : Type} [Inhabited T] (lt : T → T → Bool)

/-- The heap-construction loop of `heapSort` (main.cpp:154):
`for (int i = n/2 - 1; i >= 0; i--) heapify(arr, n, i)`.  The argument
counts the remaining iterations: a call with count `k` runs `heapify` at
roots `k-1, k-2, ..., 0`, so count `n/2` is exactly the source loop. -/
def buildHeap (l : List T) (n : Nat) : Nat → List T
  | 0 => l
  | k+1 => buildHeap (heapifyL lt l n k) n k

/-- The extraction loop of `heapSort` (main.cpp:155-158):
`for (int i = n - 1; i > 0; i--) { swap(arr[0], arr[i]); heapify(arr, i, 0); }`;
the argument is the loop variable `i`, counting down to `0` exclusive. -/
def extractHeap (l : List T) : Nat → List T
  | 0 => l
  | i+1 => extractHeap (heapifyL lt (listSwap l 0 (i+1)) (i+1) 0) i

/-- Embedding of `heapSort` (main.cpp:151-159). -/
def heapSortL (l : List T) : List T :=
  extractHeap lt (buildHeap lt l l.length (l.length / 2)) (l.length - 1)

theorem length_buildHeap : ∀ (k : Nat) (l : List T) (n : Nat),
    (buildHeap lt l n k).length = l.length := by
  intro k
  induction k with
  | zero => intro l n; rfl
  | succ k ih =>
    intro l n
    show (buildHeap lt (heapifyL lt l n k) n k).length = _
    rw [ih, heapifyL_length']

theorem buildHeap_perm : ∀ (k : Nat) (l : List T) (n : Nat),
    List.Perm (buildHeap lt l n k) l := by
  intro k
  induction k with
  | zero => intro l n; exact List.Perm.refl l
  | succ k ih =>
    intro l n
    exact (ih (heapifyL lt l n k) n).trans (heapifyL_perm' lt l n k)

theorem length_extractHeap : ∀ (i : Nat) (l : List T),
    (extractHeap lt l i).length = l.length := by
  intro i
  induction i with
  | zero => intro l; rfl
  | succ i ih =>
    intro l
    show (extractHeap lt (heapifyL lt (listSwap l 0 (i+1)) (i+1) 0) i).length = _
    rw [ih, heapifyL_length', length_listSwap]

theorem extractHeap_perm : ∀ (i : Nat) (l : List T),
    List.Perm (extractHeap lt l i) l := by
  intro i
  induction i with
  | zero => intro l; exact List.Perm.refl l
  | succ i ih =>
    intro l
    exact ((ih _).trans (heapifyL_perm' lt _ (i+1) 0)).trans (listSwap_perm l 0 (i+1))

theorem heapCond_mono {l : List T} {n n' j : Nat} (h : n' ≤ n)
    (hc : HeapCond lt l n j) : HeapCond lt l n' j :=
  ⟨fun h1 => hc.1 (by omega), fun h2 => hc.2 (by omega)⟩

theorem buildHeap_spec (hasym : ∀ a b, lt a b = true → lt b a = false)
    (htrans : ∀ a b c, lt a b = true → lt b c = true → lt a c = true)
    (hconn : ∀ a c, lt a c = true → ∀ b, lt a b = true ∨ lt b c = true) :
    ∀ (k : Nat) (l : List T) (n : Nat), n ≤ l.length →
    (∀ j, k ≤ j → j < n → HeapCond lt l n j) →
    ∀ j, j < n → HeapCond lt (buildHeap lt l n k) n j := by
  intro k
  induction k with
  | zero =>
    intro l n _ hInv j hj
    exact hInv j (Nat.zero_le j) hj
  | succ k ih =>
    intro l n hn hInv
    have hpre : ∀ j, HeapDesc k j → j ≠ k → j < n → HeapCond lt l n j := by
      intro j hd hne hj
      have := hd.le
      exact hInv j (by omega) hj
    obtain ⟨R1, R2⟩ := heapifyL_main lt hasym htrans hconn (n - k) l n k
      (Nat.le_refl _) hn hpre
    have hInv' : ∀ j, k ≤ j → j < n → HeapCond lt (heapifyL lt l n k) n j := by
      intro j hkj hj
      by_cases hd : HeapDesc k j
      · exact R1 j hd hj
      · have hne : j ≠ k := fun hc => hd (by rw [hc]; exact HeapDesc.refl k)
        have hchild_nd : ∀ c, (c = 2*j+1 ∨ c = 2*j+2) → ¬ HeapDesc k c := by
          intro c hc hdc
          have hck : c ≠ k := by
            rcases hc with h' | h' <;> omega
          exact hd (hdc.child_rev hck hc)
        refine heapCond_congr lt ?_ ?_ ?_ (hInv j (by omega) hj)
        · exact heapifyL_outside lt (n - k) l n k (Nat.le_refl _) j (Or.inl hd)
        · exact fun _ => heapifyL_outside lt (n - k) l n k (Nat.le_refl _) (2*j+1)
            (Or.inl (hchild_nd _ (Or.inl rfl)))
        · exact fun _ => heapifyL_outside lt (n - k) l n k (Nat.le_refl _) (2*j+2)
            (Or.inl (hchild_nd _ (Or.inr rfl)))
    show ∀ j, j < n → HeapCond lt (buildHeap lt (heapifyL lt l n k) n k) n j
    exact ih (heapifyL lt l n k) n (by rw [heapifyL_length']; omega) hInv'

end HeapSortLoops

section ExtractSpec

variable {T : Type} [Inhabited T] (lt : T → T → Bool)

theorem extractHeap_spec (hasym : ∀ a b, lt a b = true → lt b a = false)
    (htrans : ∀ a b c, lt a b = true → lt b c = true → lt a c = true)
    (hconn : ∀ a c, lt a c = true → ∀ b, lt a b = true ∨ lt b c = true) :
    ∀ (i : Nat) (l : List T), i < l.length →
    (∀ j, j < i+1 → HeapCond lt l (i+1) j) →
    (∀ p q, i < p → p < q → q < l.length →
      lt (l.getD q default) (l.getD p default) = false) →
    (∀ p q, p ≤ i → i < q → q < l.length →
      lt (l.getD q default) (l.getD p default) = false) →
    ∀ p q, p < q → q < l.length →
      lt ((extractHeap lt l i).getD q default)
        ((extractHeap lt l i).getD p default) = false := by
  intro i
  induction i with
  | zero =>
    intro l _ _ E3 E4 p q hpq hq
    show lt (l.getD q default) (l.getD p default) = false
    rcases Nat.eq_zero_or_pos p with hp | hp
    · rw [hp] at hpq ⊢
      exact E4 0 q (Nat.le_refl 0) hpq hq
    · exact E3 p q hp hpq hq
  | succ i ih =>
    intro l hlen E2 E3 E4
    have h0l : 0 < l.length := by omega
    have hi1l : i + 1 < l.length := hlen
    have hlen2 : (listSwap l 0 (i+1)).length = l.length := length_listSwap l 0 (i+1)
    have hs0 : (listSwap l 0 (i+1)).getD 0 default = l.getD (i+1) default :=
      getD_listSwap_fst l h0l hi1l default
    have hs1 : (listSwap l 0 (i+1)).getD (i+1) default = l.getD 0 default :=
      getD_listSwap_snd l h0l hi1l default
    have hsother : ∀ k, k ≠ 0 → k ≠ i+1 →
        (listSwap l 0 (i+1)).getD k default = l.getD k default := by
      intro k h1 h2
      exact getD_listSwap_other l h1 h2 default
    have hroot : ∀ k, k < i+2 → lt (l.getD 0 default) (l.getD k default) = false := by
      intro k hk
      exact heap_root_max lt hasym hconn (fun j _ hj => E2 j hj) k (heapDesc_zero k) hk
    have hpre : ∀ j, HeapDesc 0 j → j ≠ 0 → j < i+1 →
        HeapCond lt (listSwap l 0 (i+1)) (i+1) j := by
      intro j _ hne hj
      refine heapCond_congr lt ?_ ?_ ?_
        (heapCond_mono lt (by omega) (E2 j (by omega)))
      · exact hsother j hne (by omega)
      · exact fun hc => hsother (2*j+1) (by omega) (by omega)
      · exact fun hc => hsother (2*j+2) (by omega) (by omega)
    obtain ⟨R1, R2⟩ := heapifyL_main lt hasym htrans hconn (i+1)
      (listSwap l 0 (i+1)) (i+1) 0 (Nat.le_refl _) (by omega) hpre
    set r := heapifyL lt (listSwap l 0 (i+1)) (i+1) 0 with hr
    have hrlen : r.length = l.length := by
      rw [hr, heapifyL_length', hlen2]
    have hrhigh : ∀ k, i+1 ≤ k → r.getD k default = (listSwap l 0 (i+1)).getD k default := by
      intro k hk
      exact heapifyL_outside lt (i+1) _ (i+1) 0 (Nat.le_refl _) k (Or.inr hk)
    have E2' : ∀ j, j < i+1 → HeapCond lt r (i+1) j := by
      intro j hj
      exact R1 j (heapDesc_zero j) hj
    have E3' : ∀ p q, i < p → p < q → q < r.length →
        lt (r.getD q default) (r.getD p default) = false := by
      intro p q hip hpq hq
      have hq2 : i + 2 ≤ q := by omega
      have hqv : r.getD q default = l.getD q default := by
        rw [hrhigh q (by omega), hsother q (by omega) (by omega)]
      rcases Nat.eq_or_lt_of_le hip with heqp | hip'
      · have hpv : r.getD p default = l.getD 0 default := by
          rw [hrhigh p (by omega), ← heqp]
          exact hs1
        rw [hqv, hpv]
        exact E4 0 q (by omega) (by omega) (by omega)
      · have hpv : r.getD p default = l.getD p default := by
          rw [hrhigh p (by omega), hsother p (by omega) (by omega)]
        rw [hqv, hpv]
        exact E3 p q (by omega) hpq (by omega)
    have E4' : ∀ p q, p ≤ i → i < q → q < r.length →
        lt (r.getD q default) (r.getD p default) = false := by
      intro p q hpi hiq hq
      obtain ⟨p', hp'd, hp'n, hp'e⟩ := R2 p (heapDesc_zero p) (by omega)
      have hpval : r.getD p default = l.getD (i+1) default ∨
          ∃ pp, pp < i+1 ∧ r.getD p default = l.getD pp default := by
        rcases Nat.eq_zero_or_pos p' with heq0 | hpos
        · left
          rw [hp'e, heq0, hs0]
        · right
          exact ⟨p', hp'n, by rw [hp'e, hsother p' (by omega) (by omega)]⟩
      rcases Nat.eq_or_lt_of_le hiq with heqq | hq2
      · have hqv : r.getD q default = l.getD 0 default := by
          rw [← heqq] at hq ⊢
          rw [hrhigh (i+1) (Nat.le_refl _), hs1]
        rw [hqv]
        rcases hpval with h | ⟨pp, hpp, h⟩
        · rw [h]
          exact hroot (i+1) (by omega)
        · rw [h]
          exact hroot pp (by omega)
      · have hqv : r.getD q default = l.getD q default := by
          rw [hrhigh q (by omega), hsother q (by omega) (by omega)]
        rw [hqv]
        rcases hpval with h | ⟨pp, hpp, h⟩
        · rw [h]
          exact E4 (i+1) q (Nat.le_refl _) (by omega) (by omega)
        · rw [h]
          exact E4 pp q (by omega) (by omega) (by omega)
    show ∀ p q, p < q → q < l.length →
      lt ((extractHeap lt r i).getD q default)
        ((extractHeap lt r i).getD p default) = false
    intro p q hpq hq
    exact ih r (by omega) E2' E3' E4' p q hpq (by omega)

end ExtractSpec

section HeapSortFinal

variable {T : Type} [Inhabited T] (lt : T → T → Bool)

theorem heapSortL_perm (l : List T) : List.Perm (heapSortL lt l) l :=
  (extractHeap_perm lt (l.length - 1) _).trans (buildHeap_perm lt (l.length / 2) l l.length)

theorem length_heapSortL (l : List T) : (heapSortL lt l).length = l.length := by
  unfold heapSortL
  rw [length_extractHeap, length_buildHeap]

theorem heapSortL_sorted_idx (hasym : ∀ a b, lt a b = true → lt b a = false)
    (htrans : ∀ a b c, lt a b = true → lt b c = true → lt a c = true)
    (hconn : ∀ a c, lt a c = true → ∀ b, lt a b = true ∨ lt b c = true)
    (l : List T) : ∀ p q, p < q → q < l.length →
    lt ((heapSortL lt l).getD q default) ((heapSortL lt l).getD p default) = false := by
  intro p q hpq hq
  cases hn : l.length with
  | zero => omega
  | succ m =>
    have hbuild : ∀ j, j < m+1 → HeapCond lt (buildHeap lt l (m+1) ((m+1) / 2)) (m+1) j := by
      apply buildHeap_spec lt hasym htrans hconn ((m+1)/2) l (m+1) (by omega)
      intro j hj hjn
      exact ⟨fun hc => absurd hc (by omega), fun hc => absurd hc (by omega)⟩
    have hblen : (buildHeap lt l (m+1) ((m+1)/2)).length = l.length :=
      length_buildHeap lt ((m+1)/2) l (m+1)
    have hmain := extractHeap_spec lt hasym htrans hconn m
      (buildHeap lt l (m+1) ((m+1)/2)) (by omega) hbuild
      (fun p q h1 h2 h3 => absurd h3 (by omega))
      (fun p q h1 h2 h3 => absurd h3 (by omega))
      p q hpq (by omega)
    unfold heapSortL
    rw [hn]
    simpa using hmain

end HeapSortFinal

/-! ### The program's sorts instantiated at `LotteryTicket` -/

instance : Inhabited LotteryTicket := ⟨⟨0, 0, "", 0⟩⟩

/-- Embedding of `selectionSort` (main.cpp:91-105) at its instantiation
`selectionSort<LotteryTicket>` used by the program. -/
def selectionSortT (l : List LotteryTicket) : List LotteryTicket := selectionSortL tLt l

/-- Embedding of `bubbleSort` (main.cpp:112-122) at `bubbleSort<LotteryTicket>`. -/
def bubbleSortT (l : List LotteryTicket) : List LotteryTicket := bubbleSortL tLt l

/-- Embedding of `heapSort` (main.cpp:151-159) at `heapSort<LotteryTicket>`. -/
def heapSortT (l : List LotteryTicket) : List LotteryTicket := heapSortL tLt l

/-- Modelled from the spec: the reference sort is `std::sort`
(main.cpp:213/232), standard-library code that is not part of this
repository; the spec requires only "any correct general-purpose comparison
sort" ordering by the record's comparison rule.  Insertion sort over the
record's `operator<=` relation is such a sort. -/
def stdSortT (l : List LotteryTicket) : List LotteryTicket :=
  List.insertionSort (fun a b => tLe a b = true) l

theorem tLe_iff (a b : LotteryTicket) : tLe a b = true ↔ tLt b a = false := by
  unfold tLe tGt
  cases h : tLt b a <;> simp

theorem hasymT : ∀ a b, tLt a b = true → tLt b a = false := fun _ _ h => tLt_asymm h

theorem htransT : ∀ a b c, tLt a b = true → tLt b c = true → tLt a c = true :=
  fun _ _ _ h1 h2 => tLt_trans h1 h2

theorem hconnT : ∀ a c, tLt a c = true → ∀ b, tLt a b = true ∨ tLt b c = true :=
  fun _ _ h b => tLt_conn b h

instance instIsTotalTLe : IsTotal LotteryTicket (fun a b => tLe a b = true) := by
  constructor
  intro a b
  rw [tLe_iff, tLe_iff]
  cases h : tLt b a with
  | false => exact Or.inl rfl
  | true => exact Or.inr (tLt_asymm h)

instance instIsTransTLe : IsTrans LotteryTicket (fun a b => tLe a b = true) := by
  constructor
  intro a b c h1 h2
  rw [tLe_iff] at h1 h2 ⊢
  exact nlt_trans tLt hconnT h2 h1

/-- Non-decreasing under the record comparison rule (`operator<=`). -/
def SortedT (l : List LotteryTicket) : Prop :=
  List.Pairwise (fun a b => tLe a b = true) l

theorem sortedT_of_idx {l : List LotteryTicket}
    (h : ∀ p q, p < q → q < l.length →
      tLt (l.getD q default) (l.getD p default) = false) : SortedT l := by
  have hw := sortedW_of_getD tLt h
  unfold SortedW at hw
  unfold SortedT
  exact hw.imp (fun hab => (tLe_iff _ _).mpr hab)

theorem idx_of_sortedT {l : List LotteryTicket} (h : SortedT l) :
    ∀ p q, p < q → q < l.length →
      tLt (l.getD q default) (l.getD p default) = false := by
  apply getD_of_sortedW tLt
  unfold SortedW
  unfold SortedT at h
  exact h.imp (fun hab => (tLe_iff _ _).mp hab)

theorem eq_of_perm_short {l' l : List LotteryTicket} (h : List.Perm l' l)
    (hl : l.length ≤ 1) : l' = l := by
  match l, hl with
  | [], _ => exact List.perm_nil.mp h
  | [a], _ => exact List.perm_singleton.mp h

/-- C1: each of the four sorts produces a sorted permutation of its input;
a sorted permutation of a short (≤ 1 element) list is the list itself. -/
theorem C1_sort_correct : ∀ l : List LotteryTicket,
    (List.Perm (stdSortT l) l ∧ SortedT (stdSortT l)) ∧
    (List.Perm (selectionSortT l) l ∧ SortedT (selectionSortT l)) ∧
    (List.Perm (bubbleSortT l) l ∧ SortedT (bubbleSortT l)) ∧
    (List.Perm (heapSortT l) l ∧ SortedT (heapSortT l)) ∧
    (l.length ≤ 1 →
      stdSortT l = l ∧ selectionSortT l = l ∧ bubbleSortT l = l ∧ heapSortT l = l) := by
  intro l
  have hstd : List.Perm (stdSortT l) l := List.perm_insertionSort _ l
  have hsel : List.Perm (selectionSortT l) l := selectionSortL_perm tLt l
  have hbub : List.Perm (bubbleSortT l) l := bubbleSortL_perm tLt l
  have hheap : List.Perm (heapSortT l) l := heapSortL_perm tLt l
  refine ⟨⟨hstd, ?_⟩, ⟨hsel, ?_⟩, ⟨hbub, ?_⟩, ⟨hheap, ?_⟩, ?_⟩
  · exact List.sorted_insertionSort _ l
  · apply sortedT_of_idx
    intro p q hpq hq
    unfold selectionSortT at hq ⊢
    rw [length_selectionSortL] at hq
    exact selectionSortL_sorted_idx tLt hasymT htransT hconnT l p q hpq hq
  · apply sortedT_of_idx
    intro p q hpq hq
    unfold bubbleSortT at hq ⊢
    rw [length_bubbleSortL] at hq
    exact bubbleSortL_sorted_idx tLt hasymT hconnT l q p hpq hq
  · apply sortedT_of_idx
    intro p q hpq hq
    unfold heapSortT at hq ⊢
    rw [length_heapSortL] at hq
    exact heapSortL_sorted_idx tLt hasymT htransT hconnT l p q hpq hq
  · intro hlen
    exact ⟨eq_of_perm_short hstd hlen, eq_of_perm_short hsel hlen,
      eq_of_perm_short hbub hlen, eq_of_perm_short hheap hlen⟩

/-- Closed instance of `C1_sort_correct` discharging its short-input
hypothesis at concrete lists. -/
theorem C1_sort_correct_witness :
    stdSortT [⟨1, 10, "2024-05-01", 50⟩] = [⟨1, 10, "2024-05-01", 50⟩] ∧
    selectionSortT [⟨1, 10, "2024-05-01", 50⟩] = [⟨1, 10, "2024-05-01", 50⟩] ∧
    bubbleSortT [⟨1, 10, "2024-05-01", 50⟩] = [⟨1, 10, "2024-05-01", 50⟩] ∧
    heapSortT [⟨1, 10, "2024-05-01", 50⟩] = [⟨1, 10, "2024-05-01", 50⟩] :=
  (C1_sort_correct [⟨1, 10, "2024-05-01", 50⟩]).2.2.2.2 (by decide)

/-- C2: the comparison orders by date ascending, then win amount descending,
then ticket number ascending; with equal date and win amount, ticket 3
precedes ticket 7 (and sorting places it first). -/
theorem C2_compare_rule :
    (∀ a b : LotteryTicket, tLt a b = true ↔
      (a.lotteryDate < b.lotteryDate ∨
        (a.lotteryDate = b.lotteryDate ∧
          (b.winAmount < a.winAmount ∨
            (a.winAmount = b.winAmount ∧ a.ticketNumber < b.ticketNumber))))) ∧
    (∀ (c c' w : Int) (d : String),
      tLt ⟨3, c, d, w⟩ ⟨7, c', d, w⟩ = true ∧ tLt ⟨7, c', d, w⟩ ⟨3, c, d, w⟩ = false) ∧
    bubbleSortT [⟨7, 0, "2024-05-01", 100⟩, ⟨3, 0, "2024-05-01", 100⟩]
      = [⟨3, 0, "2024-05-01", 100⟩, ⟨7, 0, "2024-05-01", 100⟩] := by
  refine ⟨?_, ?_, by decide⟩
  · intro a b
    unfold tLt
    rcases eq_or_ne a.lotteryDate b.lotteryDate with hd | hd
    · rcases eq_or_ne a.winAmount b.winAmount with hw | hw
      · simp [hd, hw]
      · simp only [hd, hw, ne_eq, not_true_eq_false, if_false, not_false_iff, if_true,
          decide_eq_true_eq, lt_self_iff_false, false_or, true_and]
        constructor
        · intro h
          exact Or.inl h
        · intro h
          rcases h with h | ⟨h1, _⟩
          · exact h
          · exact h1.elim
    · simp only [hd, ne_eq, not_false_iff, if_true, decide_eq_true_eq]
      constructor
      · intro h
        exact Or.inl h
      · intro h
        rcases h with h | ⟨h1, _⟩
        · exact h
        · exact h1.elim
  · intro c c' w d
    constructor
    · unfold tLt
      simp
    · unfold tLt
      simp

/-- C3: the comparison is a strict total order: asymmetric, transitive, and
any two records with distinct ticket numbers are related in exactly one
direction. -/
theorem C3_total_order :
    (∀ a b : LotteryTicket, tLt a b = true → tLt b a = false) ∧
    (∀ a b c : LotteryTicket, tLt a b = true → tLt b c = true → tLt a c = true) ∧
    (∀ a b : LotteryTicket, a.ticketNumber ≠ b.ticketNumber →
      (tLt a b = true ∧ tLt b a = false) ∨ (tLt b a = true ∧ tLt a b = false)) := by
  refine ⟨hasymT, htransT, ?_⟩
  intro a b hne
  rcases lt_trichotomy (tKey a) (tKey b) with h | h | h
  · exact Or.inl ⟨(tLt_iff_key a b).mpr h, tLt_asymm ((tLt_iff_key a b).mpr h)⟩
  · exact absurd ((tKey_eq_iff a b).mp h).2.2 hne
  · exact Or.inr ⟨(tLt_iff_key b a).mpr h, tLt_asymm ((tLt_iff_key b a).mpr h)⟩

/-- Closed instance of `C3_total_order` at concrete records. -/
theorem C3_total_order_witness :
    tLt ⟨3, 0, "2024-05-01", 100⟩ ⟨7, 1, "2024-05-01", 100⟩ = true ∧
    tLt ⟨7, 1, "2024-05-01", 100⟩ ⟨3, 0, "2024-05-01", 100⟩ = false ∧
    ((tLt ⟨3, 0, "2024-05-01", 100⟩ ⟨7, 1, "2024-05-01", 100⟩ = true ∧
      tLt ⟨7, 1, "2024-05-01", 100⟩ ⟨3, 0, "2024-05-01", 100⟩ = false) ∨
     (tLt ⟨7, 1, "2024-05-01", 100⟩ ⟨3, 0, "2024-05-01", 100⟩ = true ∧
      tLt ⟨3, 0, "2024-05-01", 100⟩ ⟨7, 1, "2024-05-01", 100⟩ = false)) := by
  refine ⟨by decide, by decide, ?_⟩
  exact C3_total_order.2.2 ⟨3, 0, "2024-05-01", 100⟩ ⟨7, 1, "2024-05-01", 100⟩ (by decide)

/-- C8: the comparison never reads `cost`: changing only the cost fields of
the two records changes nothing about the comparison result. -/
theorem C8_cost_noninterference : ∀ (a b : LotteryTicket) (c₁ c₂ : Int),
    tLt { a with cost := c₁ } { b with cost := c₂ } = tLt a b := by
  intro a b c₁ c₂
  rfl

/-- C5: bubble sort executes exactly `N - 1` passes (instrumented count) with
no early exit — in particular still `N - 1` passes on already-sorted input,
which it returns unchanged — and each inner step swaps the adjacent pair
exactly when the left element is strictly greater than the right. -/
theorem C5_bubble_passes : ∀ l : List LotteryTicket,
    (bubbleSortCount tLt l).2 = l.length - 1 ∧
    (bubbleSortCount tLt l).1 = bubbleSortT l ∧
    (∀ j, j + 1 < l.length →
      (tLt (l.getD (j+1) default) (l.getD j default) = true →
        (bubbleStep tLt l j).getD j default = l.getD (j+1) default ∧
        (bubbleStep tLt l j).getD (j+1) default = l.getD j default) ∧
      (tLt (l.getD (j+1) default) (l.getD j default) = false →
        bubbleStep tLt l j = l)) ∧
    (SortedT l → bubbleSortT l = l ∧ (bubbleSortCount tLt l).2 = l.length - 1) := by
  intro l
  have hcount : bubbleSortCount tLt l = (bubbleOuter tLt l (l.length - 1), l.length - 1) := by
    unfold bubbleSortCount
    exact bubbleOuterCount_spec tLt (l.length - 1) l
  refine ⟨by rw [hcount], by rw [hcount]; rfl, ?_, ?_⟩
  · intro j hj
    constructor
    · intro hsw
      unfold bubbleStep
      rw [if_pos hsw]
      exact ⟨getD_listSwap_fst l (by omega) hj default,
        getD_listSwap_snd l (by omega) hj default⟩
    · intro hsw
      unfold bubbleStep
      rw [hsw]
      simp
  · intro hs
    have hidx := idx_of_sortedT hs
    exact ⟨bubbleSortL_id_of_sorted tLt l hidx, by rw [hcount]⟩

/-- Closed instance of `C5_bubble_passes` discharging its hypotheses at
concrete inputs: an inverted pair is swapped, a sorted list is returned
unchanged after the full `N - 1` passes. -/
theorem C5_bubble_passes_witness :
    ((bubbleStep tLt [⟨2, 0, "2024-01-01", 5⟩, ⟨1, 0, "2024-01-01", 5⟩] 0).getD 0 default
        = [⟨2, 0, "2024-01-01", 5⟩, (⟨1, 0, "2024-01-01", 5⟩ : LotteryTicket)].getD 1 default ∧
      (bubbleStep tLt [⟨2, 0, "2024-01-01", 5⟩, ⟨1, 0, "2024-01-01", 5⟩] 0).getD 1 default
        = [⟨2, 0, "2024-01-01", 5⟩, (⟨1, 0, "2024-01-01", 5⟩ : LotteryTicket)].getD 0 default) ∧
    (bubbleSortT [⟨1, 0, "2024-01-01", 5⟩, ⟨2, 0, "2024-01-01", 5⟩]
        = [⟨1, 0, "2024-01-01", 5⟩, ⟨2, 0, "2024-01-01", 5⟩] ∧
      (bubbleSortCount tLt [⟨1, 0, "2024-01-01", 5⟩, ⟨2, 0, "2024-01-01", 5⟩]).2
        = [⟨1, 0, "2024-01-01", 5⟩, (⟨2, 0, "2024-01-01", 5⟩ : LotteryTicket)].length - 1) :=
  ⟨((C5_bubble_passes [⟨2, 0, "2024-01-01", 5⟩, ⟨1, 0, "2024-01-01", 5⟩]).2.2.1 0
      (by decide)).1 (by decide),
   (C5_bubble_passes [⟨1, 0, "2024-01-01", 5⟩, ⟨2, 0, "2024-01-01", 5⟩]).2.2.2 (by
     unfold SortedT
     refine List.Pairwise.cons ?_ (List.pairwise_singleton _ _)
     intro x hx
     rw [List.mem_singleton] at hx
     rw [hx]
     decide)⟩

section HeapFuel

variable {T : Type} [Inhabited T] (lt : T → T → Bool)

/-- Fuel-indexed heap-construction loop: `buildHeap` with every `heapify`
call run through `heapifyFuel` with fuel `n + 1`. -/
def buildHeapFuel (l : List T) (n : Nat) : Nat → Option (List T)
  | 0 => some l
  | k+1 =>
    match heapifyFuel lt (n+1) l n k with
    | some l' => buildHeapFuel l' n k
    | none => none

/-- Fuel-indexed extraction loop of `heapSort`. -/
def extractHeapFuel (l : List T) : Nat → Option (List T)
  | 0 => some l
  | i+1 =>
    match heapifyFuel lt (i+2) (listSwap l 0 (i+1)) (i+1) 0 with
    | some l' => extractHeapFuel l' i
    | none => none

/-- Fuel-indexed `heapSort`: every sift-down is run with explicit fuel. -/
def heapSortFuel (l : List T) : Option (List T) :=
  match buildHeapFuel lt l l.length (l.length / 2) with
  | some l' => extractHeapFuel lt l' (l.length - 1)
  | none => none

theorem buildHeapFuel_spec : ∀ (k : Nat) (l : List T) (n : Nat),
    buildHeapFuel lt l n k = some (buildHeap lt l n k) := by
  intro k
  induction k with
  | zero => intro l n; rfl
  | succ k ih =>
    intro l n
    show (match heapifyFuel lt (n+1) l n k with
      | some l' => buildHeapFuel lt l' n k
      | none => none) = _
    rw [heapifyFuel_spec lt (n+1) l n k (by omega)]
    exact ih (heapifyL lt l n k) n

theorem extractHeapFuel_spec : ∀ (i : Nat) (l : List T),
    extractHeapFuel lt l i = some (extractHeap lt l i) := by
  intro i
  induction i with
  | zero => intro l; rfl
  | succ i ih =>
    intro l
    show (match heapifyFuel lt (i+2) (listSwap l 0 (i+1)) (i+1) 0 with
      | some l' => extractHeapFuel lt l' i
      | none => none) = _
    rw [heapifyFuel_spec lt (i+2) (listSwap l 0 (i+1)) (i+1) 0 (by omega)]
    exact ih _

theorem heapSortFuel_spec (l : List T) : heapSortFuel lt l = some (heapSortL lt l) := by
  unfold heapSortFuel
  rw [buildHeapFuel_spec]
  exact extractHeapFuel_spec lt (l.length - 1) _

end HeapFuel

/-- C9: `heapify` terminates: fuel `n - i + 1` always suffices because every
recursive call strictly increases the root index (to a child `≥ 2i+1`)
while staying below `n`; consequently the whole `heapSort` runs to
completion on every input with explicitly bounded fuel. -/
theorem C9_heapify_terminates :
    (∀ (l : List LotteryTicket) (n i : Nat),
      heapifyFuel tLt (n - i + 1) l n i = some (heapifyL tLt l n i)) ∧
    (∀ l : List LotteryTicket, heapSortFuel tLt l = some (heapSortT l)) :=
  ⟨fun l n i => heapifyFuel_spec tLt (n - i + 1) l n i (by omega),
   fun l => heapSortFuel_spec tLt l⟩

/-- Records with equal sort keys (the comparison's notion of equivalence). -/
def keyEqT (a b : LotteryTicket) : Bool :=
  decide (a.lotteryDate = b.lotteryDate) && decide (a.winAmount = b.winAmount) &&
    decide (a.ticketNumber = b.ticketNumber)

/-- C10: bubble sort is stable: records that compare equivalent (neither
strictly below the other, i.e. equal date, win amount and ticket number)
keep their relative order, because a swap happens only on strict `>`. -/
theorem C10_bubble_stable :
    (∀ a b : LotteryTicket, keyEqT a b = true ↔ (tLt a b = false ∧ tLt b a = false)) ∧
    (∀ (l : List LotteryTicket) (k : LotteryTicket),
      (bubbleSortT l).filter (fun x => keyEqT x k)
        = l.filter (fun x => keyEqT x k)) := by
  constructor
  · intro a b
    constructor
    · intro h
      simp only [keyEqT, Bool.and_eq_true, decide_eq_true_eq] at h
      obtain ⟨⟨h1, h2⟩, h3⟩ := h
      constructor <;> (unfold tLt; simp [h1, h2, h3])
    · rintro ⟨h1, h2⟩
      obtain ⟨e1, e2, e3⟩ := tLt_eq_keys h1 h2
      simp [keyEqT, e1, e2, e3]
  · intro l k
    apply filter_bubbleSortL tLt (fun x => keyEqT x k) ?_ l
    intro x y hx hy
    simp only [keyEqT, Bool.and_eq_true, decide_eq_true_eq] at hx hy
    obtain ⟨⟨hx1, hx2⟩, hx3⟩ := hx
    obtain ⟨⟨hy1, hy2⟩, hy3⟩ := hy
    unfold tLt
    simp [hx1, hx2, hx3, hy1, hy2, hy3]

/-! ### The benchmark harness (main.cpp:316-358) -/

/-- The four sorting strategies the harness measures. -/
inductive SortAlg where
  | std
  | bubble
  | selection
  | heap
deriving DecidableEq, Repr

/-- The size sweep hard-coded in `main` (main.cpp:318). -/
def arrSizes : List Nat :=
  [100, 500, 1000, 2500, 5000, 7500, 10000, 12500, 15000, 20000, 30000, 40000,
   50000, 60000, 80000, 100000]

/-- The sequence of `(algorithm, size)` measurement invocations `main`
performs, in program order (main.cpp:331-349): four consecutive loops, each
running one algorithm over every dataset of the sweep — all `std::sort`
runs, then all bubble runs, then all selection runs, then all heap runs. -/
def mainRuns (sizes : List Nat) : List (SortAlg × Nat) :=
  sizes.map (fun s => (SortAlg.std, s)) ++ sizes.map (fun s => (SortAlg.bubble, s)) ++
    sizes.map (fun s => (SortAlg.selection, s)) ++ sizes.map (fun s => (SortAlg.heap, s))

/-- Like `mainRuns`, but recording the dataset each invocation receives:
every `measure*` function takes its vector by value (main.cpp:229, 243, 266,
289), so each invocation gets a fresh copy of the loaded dataset `data s`,
never the output of an earlier sort. -/
def mainRunInputs (sizes : List Nat) (data : Nat → List LotteryTicket) :
    List (SortAlg × List LotteryTicket) :=
  sizes.map (fun s => (SortAlg.std, data s)) ++
    sizes.map (fun s => (SortAlg.bubble, data s)) ++
    sizes.map (fun s => (SortAlg.selection, data s)) ++
    sizes.map (fun s => (SortAlg.heap, data s))

/-- The results table `main` writes to `time_sorts.txt` (main.cpp:352-357):
row `i` is `arr_size[i], std[i], bubble[i], selection[i], heap[i]`, the four
time vectors having been built by mapping one measurement per dataset
(main.cpp:331-349).  Wall-clock durations are not a function of the program
text, so the measurement is the abstract timing oracle `time`. -/
def mainTable (sizes : List Nat) (data : Nat → List LotteryTicket)
    (time : SortAlg → List LotteryTicket → Int) : List (Nat × Int × Int × Int × Int) :=
  let stdTimes := (sizes.map data).map (time SortAlg.std)
  let bubbleTimes := (sizes.map data).map (time SortAlg.bubble)
  let selectionTimes := (sizes.map data).map (time SortAlg.selection)
  let heapTimes := (sizes.map data).map (time SortAlg.heap)
  (List.range stdTimes.length).map (fun i =>
    (sizes.getD i 0, stdTimes.getD i 0, bubbleTimes.getD i 0,
      selectionTimes.getD i 0, heapTimes.getD i 0))

/-- The invocation order asserted by the specification: for each size in
sweep order, reference sort, then bubble, then selection, then heap. -/
def specRuns (sizes : List Nat) : List (SortAlg × Nat) :=
  (sizes.map (fun s => [(SortAlg.std, s), (SortAlg.bubble, s),
    (SortAlg.selection, s), (SortAlg.heap, s)])).join

/-- C4 counterexample: on the program's own size sweep, the sequence of sort
invocations `main` performs is not the per-size-nested sequence the claim
describes — the code completes all runs of one algorithm before moving to
the next algorithm. -/
theorem C4_counterexample : mainRuns arrSizes ≠ specRuns arrSizes := by decide

/-- C4 (amended): the harness runs algorithm-major — all reference-sort
measurements over the ascending sweep, then all bubble, then all selection,
then all heap, each invocation on a fresh copy of that size's unsorted
dataset — and the emitted table has one row per size, in sweep (ascending)
order, with columns `(size, reference, bubble, selection, heap)`. -/
theorem C4_harness_amended :
    (∀ (sizes : List Nat) (data : Nat → List LotteryTicket)
      (time : SortAlg → List LotteryTicket → Int),
      mainTable sizes data time = sizes.map (fun s =>
        (s, time SortAlg.std (data s), time SortAlg.bubble (data s),
          time SortAlg.selection (data s), time SortAlg.heap (data s))) ∧
      mainRunInputs sizes data = (mainRuns sizes).map (fun p => (p.1, data p.2))) ∧
    List.Pairwise (· < ·) arrSizes := by
  constructor
  · intro sizes data time
    constructor
    · apply List.ext_getElem
      · simp [mainTable]
      · intro i h1 h2
        have hsl : i < sizes.length := by
          simpa [mainTable] using h1
        simp only [mainTable, List.getElem_map, List.getElem_range]
        rw [List.getD_eq_getElem sizes 0 hsl,
          List.getD_eq_getElem _ 0 (by simpa using hsl),
          List.getD_eq_getElem _ 0 (by simpa using hsl),
          List.getD_eq_getElem _ 0 (by simpa using hsl),
          List.getD_eq_getElem _ 0 (by simpa using hsl)]
        simp [List.getElem_map]
    · simp only [mainRunInputs, mainRuns, List.map_append, List.map_map]
      rfl
  · decide

/-! ### CSV reading and writing (main.cpp:79-82, 167-205) -/

/-- Whitespace in the default C locale, skipped by `std::stoll`/`std::stoi`. -/
def isCppSpace (c : Char) : Bool :=
  c = ' ' || c = '\t' || c = '\n' || c = '\x0b' || c = '\x0c' || c = '\r'

/-- Numeric value of a run of decimal digit characters. -/
def digitsVal (ds : List Char) : Nat :=
  ds.foldl (fun acc c => 10 * acc + (c.toNat - '0'.toNat)) 0

/-- Model of `std::stoll`/`std::stoi` (called at main.cpp:181-184): skip
leading whitespace, read an optional sign and then a non-empty run of
decimal digits, ignoring anything after the digits.  `none` models the
exceptions: `std::invalid_argument` when there is no digit,
`std::out_of_range` when the value does not fit `[low, high]`. -/
def parseCppInt (low high : Int) (cs : List Char) : Option Int :=
  let cs1 := cs.dropWhile isCppSpace
  let sgn : Int := if cs1.head? = some '-' then -1 else 1
  let cs2 := if cs1.head? = some '-' || cs1.head? = some '+' then cs1.tail else cs1
  let ds := cs2.takeWhile (fun c => c.isDigit)
  if ds = [] then none
  else
    let v : Int := sgn * (digitsVal ds : Int)
    if v < low ∨ high < v then none else some v

/-- Model of `std::stoll` (main.cpp:181): 64-bit signed range. -/
def stollM (cs : List Char) : Option Int := parseCppInt (-(2^63)) (2^63 - 1) cs

/-- Model of `std::stoi` (main.cpp:182, 184): 32-bit signed range. -/
def stoiM (cs : List Char) : Option Int := parseCppInt (-(2^31)) (2^31 - 1) cs

/-- Comma-separated segments of a character list; used only to state how
many comma-delimited fields a line has (the extraction itself is modelled
by `getlineStep`). -/
def splitOnComma : List Char → List (List Char)
  | [] => [[]]
  | c :: cs =>
    if c = ',' then [] :: splitOnComma cs
    else
      match splitOnComma cs with
      | f :: rest => (c :: f) :: rest
      | [] => [[c]]

/-- State of the per-line `std::stringstream ss(line)` together with the
`item` string between the four `std::getline(ss, item, ',')` calls
(main.cpp:179-184): the unread characters, the stream's eofbit and
failbit, and the current contents of `item`. -/
structure GetlineState where
  rem : List Char
  eofb : Bool
  failb : Bool
  item : List Char
deriving DecidableEq, Repr

/-- One `std::getline(ss, item, ',')` call (main.cpp:181-184).  If eofbit
or failbit is already set the sentry fails: failbit is set and `item`
keeps its previous contents (`str.erase()` runs only after a successful
sentry), so a later extraction re-uses the stale previous field.  On a
good stream `item` is first erased, then characters are appended until the
delimiter (consumed, not stored) or end-of-input; reading up to
end-of-input with at least one character extracted is a success that sets
eofbit, while extracting no character at all sets eofbit and failbit with
`item` left erased. -/
def getlineStep (s : GetlineState) : GetlineState :=
  if s.failb || s.eofb then { s with failb := true }
  else if s.rem = [] then { rem := [], eofb := true, failb := true, item := [] }
  else
    let seg := s.rem.takeWhile (fun c => c ≠ ',')
    match s.rem.dropWhile (fun c => c ≠ ',') with
    | _ :: rest => { rem := rest, eofb := false, failb := false, item := seg }
    | [] => { rem := [], eofb := true, failb := false, item := seg }

/-- The four values `item` holds after each of the four `getline` calls of
one read-loop iteration (main.cpp:181-184), starting from a fresh
stringstream over the line and an empty `item`. -/
def getlineItems (cs : List Char) : List (List Char) :=
  let s1 := getlineStep { rem := cs, eofb := false, failb := false, item := [] }
  let s2 := getlineStep s1
  let s3 := getlineStep s2
  let s4 := getlineStep s3
  [s1.item, s2.item, s3.item, s4.item]

/-- One iteration of the read loop (main.cpp:174-186): four `getline`
calls on the line's stringstream, with `stoll`/`stoi` applied to the
`item` values after calls 1, 2 and 4 and the value after call 3 taken
verbatim as the date; `none` models the uncaught exception on a failed
numeric parse. -/
def parseLine (cs : List Char) : Option LotteryTicket :=
  let fs := getlineItems cs
  let f0 := fs.getD 0 []
  let f1 := fs.getD 1 []
  let f2 := fs.getD 2 []
  let f3 := fs.getD 3 []
  match stollM f0, stoiM f1, stoiM f3 with
  | some num, some cost, some win => some ⟨num, cost, String.mk f2, win⟩
  | _, _, _ => none

/-- The loader's failure modes (§7 of the design): the file cannot be
opened (main.cpp:170-172) or a line fails to parse (the `stoll`/`stoi`
exception propagates out of main.cpp:181-184). -/
inductive LoadError where
  | sourceUnavailable
  | malformedRecord
deriving DecidableEq, Repr

/-- Embedding of `readTicketsFromFile` (main.cpp:167-189): the source is `none` when the
open fails; otherwise every line is parsed in order, one record per line,
the first malformed line aborting the whole read. -/
def readTickets (src : Option (List (List Char))) :
    Except LoadError (List LotteryTicket) :=
  match src with
  | none => Except.error LoadError.sourceUnavailable
  | some lines =>
    match lines.mapM parseLine with
    | some ts => Except.ok ts
    | none => Except.error LoadError.malformedRecord

/-- The decimal digit characters, as `operator<<` prints them. -/
def digitChar (d : Nat) : Char :=
  if d = 0 then '0' else if d = 1 then '1' else if d = 2 then '2'
  else if d = 3 then '3' else if d = 4 then '4' else if d = 5 then '5'
  else if d = 6 then '6' else if d = 7 then '7' else if d = 8 then '8' else '9'

/-- Decimal digits of a natural number, most significant first. -/
def natChars (n : Nat) : List Char :=
  if n < 10 then [digitChar n]
  else natChars (n / 10) ++ [digitChar (n % 10)]
termination_by n
decreasing_by omega

/-- Decimal rendering of an integer, as `std::ostream`'s `operator<<`
produces it. -/
def intChars (i : Int) : List Char :=
  if i < 0 then '-' :: natChars i.natAbs else natChars i.toNat

/-- Embedding of `operator<<` for a ticket (main.cpp:79-82):
`ticketNumber "," cost "," lotteryDate "," winAmount`. -/
def writeLine (t : LotteryTicket) : List Char :=
  intChars t.ticketNumber ++ (',' :: (intChars t.cost ++ (',' ::
    (t.lotteryDate.data ++ (',' :: intChars t.winAmount)))))

/-- Embedding of `writeTicketsToFile` (main.cpp:197-205): one record per line. -/
def writeTickets (ts : List LotteryTicket) : List (List Char) := ts.map writeLine

/-- Well-formed per the data model (§3): the date is a delimiter-free
single-line text field (the spec's `YYYY-MM-DD` dates are) and the numeric
fields fit their declared machine-integer types. -/
def WellFormedT (t : LotteryTicket) : Prop :=
  (',' ∉ t.lotteryDate.data) ∧ ('\n' ∉ t.lotteryDate.data) ∧
  (-(2^63) ≤ t.ticketNumber ∧ t.ticketNumber ≤ 2^63 - 1) ∧
  (-(2^31) ≤ t.cost ∧ t.cost ≤ 2^31 - 1) ∧
  (-(2^31) ≤ t.winAmount ∧ t.winAmount ≤ 2^31 - 1)

instance (t : LotteryTicket) : Decidable (WellFormedT t) := by
  unfold WellFormedT
  infer_instance

theorem digitChar_facts (d : Nat) (h : d < 10) :
    (digitChar d).isDigit = true ∧ (digitChar d).toNat - '0'.toNat = d ∧
    digitChar d ≠ ',' ∧ isCppSpace (digitChar d) = false ∧
    digitChar d ≠ '-' ∧ digitChar d ≠ '+' := by
  interval_cases d <;> exact ⟨by decide, by decide, by decide, by decide, by decide, by decide⟩

theorem digitsVal_append (ds : List Char) (c : Char) :
    digitsVal (ds ++ [c]) = 10 * digitsVal ds + (c.toNat - '0'.toNat) := by
  unfold digitsVal
  rw [List.foldl_append]
  rfl

theorem natChars_facts : ∀ n : Nat,
    (∀ c ∈ natChars n, c.isDigit = true) ∧
    (∃ d ds, d < 10 ∧ natChars n = digitChar d :: ds) ∧
    digitsVal (natChars n) = n := by
  intro n
  induction n using Nat.strong_induction_on with
  | _ n ih =>
    by_cases h : n < 10
    · have hn : natChars n = [digitChar n] := by
        unfold natChars
        rw [if_pos h]
      rw [hn]
      refine ⟨?_, ⟨n, [], h, rfl⟩, ?_⟩
      · intro c hc
        rw [List.mem_singleton] at hc
        rw [hc]
        exact (digitChar_facts n h).1
      · have h0 := (digitChar_facts n h).2.1
        show digitsVal ([] ++ [digitChar n]) = n
        rw [digitsVal_append]
        have hz : digitsVal [] = 0 := rfl
        rw [hz, h0]
        omega
    · have hn : natChars n = natChars (n / 10) ++ [digitChar (n % 10)] := by
        conv_lhs => unfold natChars
        rw [if_neg h]
      obtain ⟨hdig, ⟨d, ds, hd, hcons⟩, hval⟩ := ih (n / 10) (by omega)
      rw [hn]
      refine ⟨?_, ⟨d, ds ++ [digitChar (n % 10)], hd, by rw [hcons]; rfl⟩, ?_⟩
      · intro c hc
        rw [List.mem_append] at hc
        rcases hc with hc | hc
        · exact hdig c hc
        · rw [List.mem_singleton] at hc
          rw [hc]
          exact (digitChar_facts _ (by omega)).1
      · rw [digitsVal_append, hval, (digitChar_facts _ (by omega : n % 10 < 10)).2.1]
        omega

theorem takeWhile_all {p : Char → Bool} : ∀ {l : List Char},
    (∀ c ∈ l, p c = true) → l.takeWhile p = l := by
  intro l
  induction l with
  | nil => intro _; rfl
  | cons c cs ih =>
    intro h
    have h1 : p c = true := h c (List.mem_cons_self c cs)
    have h2 : List.takeWhile p cs = cs := ih (fun c' hc' => h c' (List.mem_cons_of_mem c hc'))
    simp [List.takeWhile_cons, h1, h2]

theorem parseCppInt_intChars (low high : Int) (i : Int) (h1 : low ≤ i) (h2 : i ≤ high) :
    parseCppInt low high (intChars i) = some i := by
  by_cases hneg : i < 0
  · obtain ⟨hdig, ⟨d, ds, hd, hcons⟩, hval⟩ := natChars_facts i.natAbs
    have htake : (natChars i.natAbs).takeWhile (fun c => c.isDigit) = natChars i.natAbs :=
      takeWhile_all hdig
    have hne : natChars i.natAbs ≠ [] := by rw [hcons]; simp
    have hichars : intChars i = '-' :: natChars i.natAbs := by
      unfold intChars
      rw [if_pos hneg]
    have hdrop : List.dropWhile isCppSpace ('-' :: natChars i.natAbs)
        = '-' :: natChars i.natAbs := by
      rw [List.dropWhile_cons]
      simp [isCppSpace]
    rw [hichars]
    unfold parseCppInt
    rw [hdrop]
    simp only [List.head?_cons, List.tail_cons]
    simp [htake, hne, hval, -Int.natCast_natAbs]
    omega
  · obtain ⟨hdig, ⟨d, ds, hd, hcons⟩, hval⟩ := natChars_facts i.toNat
    obtain ⟨_, _, _, hnsp, hnm, hnp⟩ := digitChar_facts d hd
    have htake : (natChars i.toNat).takeWhile (fun c => c.isDigit) = natChars i.toNat :=
      takeWhile_all hdig
    have hne : natChars i.toNat ≠ [] := by rw [hcons]; simp
    have hichars : intChars i = natChars i.toNat := by
      unfold intChars
      rw [if_neg hneg]
    have hdrop : List.dropWhile isCppSpace (natChars i.toNat) = natChars i.toNat := by
      rw [hcons, List.dropWhile_cons, hnsp]
      simp
    have hhead : (natChars i.toNat).head? = some (digitChar d) := by
      rw [hcons]
      rfl
    rw [hichars]
    unfold parseCppInt
    rw [hdrop]
    simp [hhead, hnm, hnp, htake, hne, hval]
    omega

theorem intChars_no_comma (i : Int) : ',' ∉ intChars i := by
  have hnat : ∀ n : Nat, ',' ∉ natChars n := by
    intro n hmem
    have := (natChars_facts n).1 ',' hmem
    simp [Char.isDigit] at this
  unfold intChars
  split
  · intro hmem
    rcases List.mem_cons.mp hmem with h | h
    · cases h
    · exact hnat _ h
  · exact hnat _

theorem intChars_ne_nil (i : Int) : intChars i ≠ [] := by
  have hnat : ∀ n : Nat, natChars n ≠ [] := by
    intro n
    obtain ⟨d, ds, _, hcons⟩ := (natChars_facts n).2.1
    rw [hcons]
    simp
  unfold intChars
  split
  · simp
  · exact hnat _

theorem dropWhile_all {p : Char → Bool} : ∀ {l : List Char},
    (∀ c ∈ l, p c = true) → l.dropWhile p = [] := by
  intro l
  induction l with
  | nil => intro _; rfl
  | cons c cs ih =>
    intro h
    have h1 : p c = true := h c (List.mem_cons_self c cs)
    have h2 : List.dropWhile p cs = [] := ih (fun c' hc' => h c' (List.mem_cons_of_mem c hc'))
    simp [List.dropWhile_cons, h1, h2]

theorem takeWhile_comma (l : List Char) (h : ',' ∉ l) :
    l.takeWhile (fun c => c ≠ ',') = l :=
  takeWhile_all (fun c hc => by
    have : c ≠ ',' := fun he => h (he ▸ hc)
    simp [this])

theorem dropWhile_comma (l : List Char) (h : ',' ∉ l) :
    l.dropWhile (fun c => c ≠ ',') = [] :=
  dropWhile_all (fun c hc => by
    have : c ≠ ',' := fun he => h (he ▸ hc)
    simp [this])

theorem takeWhile_comma_append : ∀ (l : List Char), ',' ∉ l → ∀ (r : List Char),
    (l ++ ',' :: r).takeWhile (fun c => c ≠ ',') = l := by
  intro l
  induction l with
  | nil => intro _ r; simp [List.takeWhile_cons]
  | cons c cs ih =>
    intro h r
    have hc : c ≠ ',' := fun hc => h (by rw [hc]; exact List.mem_cons_self _ _)
    have hcs : ',' ∉ cs := fun hm => h (List.mem_cons_of_mem c hm)
    rw [List.cons_append, List.takeWhile_cons, ih hcs r]
    simp [hc]

theorem dropWhile_comma_append : ∀ (l : List Char), ',' ∉ l → ∀ (r : List Char),
    (l ++ ',' :: r).dropWhile (fun c => c ≠ ',') = ',' :: r := by
  intro l
  induction l with
  | nil => intro _ r; simp [List.dropWhile_cons]
  | cons c cs ih =>
    intro h r
    have hc : c ≠ ',' := fun hc => h (by rw [hc]; exact List.mem_cons_self _ _)
    have hcs : ',' ∉ cs := fun hm => h (List.mem_cons_of_mem c hm)
    rw [List.cons_append, List.dropWhile_cons, ih hcs r]
    simp [hc]

theorem getlineStep_fail (rem : List Char) (e f : Bool) (it : List Char)
    (h : (f || e) = true) :
    getlineStep ⟨rem, e, f, it⟩ = ⟨rem, e, true, it⟩ := by
  simp [getlineStep, h]

theorem getlineStep_empty (it : List Char) :
    getlineStep ⟨[], false, false, it⟩ = ⟨[], true, true, []⟩ := rfl

theorem getlineStep_delim (l r it : List Char) (hl : ',' ∉ l) :
    getlineStep ⟨l ++ ',' :: r, false, false, it⟩ = ⟨r, false, false, l⟩ := by
  have hne : l ++ ',' :: r ≠ [] := by simp
  simp only [getlineStep]
  rw [dropWhile_comma_append l hl r, takeWhile_comma_append l hl r]
  simp [hne]

theorem getlineStep_last (l it : List Char) (hl : ',' ∉ l) (hne : l ≠ []) :
    getlineStep ⟨l, false, false, it⟩ = ⟨[], true, false, l⟩ := by
  simp only [getlineStep]
  rw [dropWhile_comma l hl, takeWhile_comma l hl]
  simp [hne]

theorem getlineItems_four (A B C D : List Char) (hA : ',' ∉ A) (hB : ',' ∉ B)
    (hC : ',' ∉ C) (hD : ',' ∉ D) (hDne : D ≠ []) :
    getlineItems (A ++ (',' :: (B ++ (',' :: (C ++ (',' :: D)))))) = [A, B, C, D] := by
  simp only [getlineItems]
  rw [getlineStep_delim A _ _ hA, getlineStep_delim B _ _ hB,
    getlineStep_delim C _ _ hC, getlineStep_last D C hD hDne]

theorem getlineItems_three (A B C : List Char) (hA : ',' ∉ A) (hB : ',' ∉ B)
    (hC : ',' ∉ C) (hCne : C ≠ []) :
    getlineItems (A ++ (',' :: (B ++ (',' :: C)))) = [A, B, C, C] := by
  simp only [getlineItems]
  rw [getlineStep_delim A _ _ hA, getlineStep_delim B _ _ hB,
    getlineStep_last C B hC hCne, getlineStep_fail [] true false C (by rfl)]

theorem getlineItems_two (A B : List Char) (hA : ',' ∉ A) (hB : ',' ∉ B)
    (hBne : B ≠ []) :
    getlineItems (A ++ (',' :: B)) = [A, B, B, B] := by
  simp only [getlineItems]
  rw [getlineStep_delim A _ _ hA, getlineStep_last B A hB hBne,
    getlineStep_fail [] true false B (by rfl), getlineStep_fail [] true true B (by rfl)]

theorem getlineItems_one (A : List Char) (hA : ',' ∉ A) (hAne : A ≠ []) :
    getlineItems A = [A, A, A, A] := by
  simp only [getlineItems]
  rw [getlineStep_last A [] hA hAne, getlineStep_fail [] true false A (by rfl),
    getlineStep_fail [] true true A (by rfl), getlineStep_fail [] true true A (by rfl)]

theorem getlineItems_trailing (A : List Char) (hA : ',' ∉ A) :
    getlineItems (A ++ [',']) = [A, [], [], []] := by
  simp only [getlineItems]
  rw [getlineStep_delim A [] _ hA, getlineStep_empty A,
    getlineStep_fail [] true true [] (by rfl), getlineStep_fail [] true true [] (by rfl)]

theorem getlineItems_writeLine (t : LotteryTicket) (hdate : ',' ∉ t.lotteryDate.data) :
    getlineItems (writeLine t) =
      [intChars t.ticketNumber, intChars t.cost, t.lotteryDate.data,
       intChars t.winAmount] := by
  show getlineItems (intChars t.ticketNumber ++ (',' :: (intChars t.cost ++ (',' ::
      (t.lotteryDate.data ++ (',' :: intChars t.winAmount)))))) = _
  exact getlineItems_four _ _ _ _ (intChars_no_comma _) (intChars_no_comma _) hdate
    (intChars_no_comma _) (intChars_ne_nil _)

theorem parseLine_writeLine (t : LotteryTicket) (hw : WellFormedT t) :
    parseLine (writeLine t) = some t := by
  obtain ⟨hd, _, ⟨hn1, hn2⟩, ⟨hc1, hc2⟩, ⟨hw1, hw2⟩⟩ := hw
  unfold parseLine
  rw [getlineItems_writeLine t hd]
  have h0 : stollM (intChars t.ticketNumber) = some t.ticketNumber :=
    parseCppInt_intChars _ _ _ hn1 hn2
  have h1 : stoiM (intChars t.cost) = some t.cost :=
    parseCppInt_intChars _ _ _ hc1 hc2
  have h3 : stoiM (intChars t.winAmount) = some t.winAmount :=
    parseCppInt_intChars _ _ _ hw1 hw2
  simp only [List.getD_cons_zero, List.getD_cons_succ]
  rw [h0, h1, h3]

/-- C7: writing any sequence of well-formed records with the sink and
reading the text back with the loader returns the same sequence. -/
theorem C7_roundtrip : ∀ ts : List LotteryTicket, (∀ t ∈ ts, WellFormedT t) →
    readTickets (some (writeTickets ts)) = Except.ok ts := by
  intro ts hts
  have hmap : (writeTickets ts).mapM parseLine = some ts := by
    unfold writeTickets
    induction ts with
    | nil => rfl
    | cons t rest ih =>
      rw [List.map_cons, List.mapM_cons,
        parseLine_writeLine t (hts t (List.mem_cons_self t rest)),
        ih (fun t' ht' => hts t' (List.mem_cons_of_mem t ht'))]
      rfl
  show (match (writeTickets ts).mapM parseLine with
    | some ts' => Except.ok ts'
    | none => Except.error LoadError.malformedRecord) = Except.ok ts
  rw [hmap]

/-- Closed instance of `C7_roundtrip` at a concrete record list. -/
theorem C7_roundtrip_witness :
    readTickets (some (writeTickets
      [⟨1, 10, "2024-05-01", 50⟩, ⟨-2, -20, "2024-06-01", 0⟩]))
      = Except.ok [⟨1, 10, "2024-05-01", 50⟩, ⟨-2, -20, "2024-06-01", 0⟩] := by
  apply C7_roundtrip
  intro t ht
  rcases List.mem_cons.mp ht with h | h
  · rw [h]; decide
  · rcases List.mem_cons.mp h with h' | h'
    · rw [h']; decide
    · cases h'

theorem mapM_parseLine_none : ∀ (lines : List (List Char)),
    (∃ l ∈ lines, parseLine l = none) → lines.mapM parseLine = none := by
  intro lines
  induction lines with
  | nil =>
    rintro ⟨l, hl, _⟩
    cases hl
  | cons c cs ih =>
    rintro ⟨l, hl, hnone⟩
    rw [List.mapM_cons]
    rcases List.mem_cons.mp hl with heq | hmem
    · rw [← heq, hnone]
      rfl
    · cases hc : parseLine c with
      | none => rfl
      | some t =>
        rw [ih ⟨l, hmem, hnone⟩]
        rfl

theorem mapM_parseLine_some : ∀ (lines : List (List Char)) (ts : List LotteryTicket),
    lines.mapM parseLine = some ts →
    ts.length = lines.length ∧
    ∀ i, i < lines.length → parseLine (lines.getD i []) = some (ts.getD i default) := by
  intro lines
  induction lines with
  | nil =>
    intro ts h
    have h0 : ([] : List (List Char)).mapM parseLine = some [] := rfl
    rw [h0] at h
    have hts : ts = [] := (Option.some_inj.mp h).symm
    rw [hts]
    exact ⟨rfl, fun i hi => absurd hi (by simp)⟩
  | cons c cs ih =>
    intro ts h
    rw [List.mapM_cons] at h
    cases hc : parseLine c with
    | none =>
      rw [hc] at h
      cases h
    | some t =>
      rw [hc] at h
      cases hcs : cs.mapM parseLine with
      | none =>
        rw [hcs] at h
        cases h
      | some rest =>
        rw [hcs] at h
        have hts : ts = t :: rest := by
          simpa using h.symm
        obtain ⟨hlen, hpt⟩ := ih rest hcs
        rw [hts]
        refine ⟨by simpa using hlen, ?_⟩
        intro i hi
        cases i with
        | zero => exact hc
        | succ i' =>
          simp only [List.getD_cons_succ]
          exact hpt i' (by simpa using hi)

theorem mapM_parseLine_total : ∀ (lines : List (List Char)),
    (∀ l ∈ lines, parseLine l ≠ none) → ∃ ts, lines.mapM parseLine = some ts := by
  intro lines
  induction lines with
  | nil => intro _; exact ⟨[], rfl⟩
  | cons c cs ih =>
    intro h
    cases hc : parseLine c with
    | none => exact absurd hc (h c (List.mem_cons_self c cs))
    | some t =>
      obtain ⟨rest, hrest⟩ := ih (fun l hl => h l (List.mem_cons_of_mem c hl))
      refine ⟨t :: rest, ?_⟩
      rw [List.mapM_cons, hc, hrest]
      rfl

theorem parseLine_none_iff (cs : List Char) : parseLine cs = none ↔
    (stollM ((getlineItems cs).getD 0 []) = none ∨
     stoiM ((getlineItems cs).getD 1 []) = none ∨
     stoiM ((getlineItems cs).getD 3 []) = none) := by
  have hbody : parseLine cs =
      (match stollM ((getlineItems cs).getD 0 []), stoiM ((getlineItems cs).getD 1 []),
          stoiM ((getlineItems cs).getD 3 []) with
        | some num, some cost, some win =>
          some ⟨num, cost, String.mk ((getlineItems cs).getD 2 []), win⟩
        | _, _, _ => none) := rfl
  rw [hbody]
  constructor
  · intro h
    split at h
    · simp at h
    · rename_i hfall
      cases hx1 : stollM ((getlineItems cs).getD 0 []) with
      | none => exact Or.inl rfl
      | some n1 =>
        cases hx2 : stoiM ((getlineItems cs).getD 1 []) with
        | none => exact Or.inr (Or.inl rfl)
        | some n2 =>
          cases hx3 : stoiM ((getlineItems cs).getD 3 []) with
          | none => exact Or.inr (Or.inr rfl)
          | some n3 => exact (hfall n1 n2 n3 hx1 hx2 hx3).elim
  · intro h
    split
    · rename_i n1 n2 n3 he1 he2 he3
      rcases h with h | h | h
      · rw [h] at he1; cases he1
      · rw [h] at he2; cases he2
      · rw [h] at he3; cases he3
    · rfl

/-- C6 counterexample: wrong field counts do not make the loader fail.  A
five-field line is accepted with the extra field ignored, and a three-field
line is accepted too: the third `getline` reads the date up to end-of-input
and sets eofbit, so the fourth call's sentry fails without erasing `item`,
the stale date text is re-parsed and `stoi` takes its leading digits 2024
as the win amount. -/
theorem C6_counterexample :
    (splitOnComma ("1,2,2024-01-01,3,99".data)).length = 5 ∧
    readTickets (some ["1,2,2024-01-01,3,99".data])
      = Except.ok [⟨1, 2, "2024-01-01", 3⟩] ∧
    (splitOnComma ("1,2,2024-01-01".data)).length = 3 ∧
    readTickets (some ["1,2,2024-01-01".data])
      = Except.ok [⟨1, 2, "2024-01-01", 2024⟩] :=
  ⟨rfl, rfl, rfl, rfl⟩

/-- C6 (amended): the loader fails exactly when the source is unavailable
or the `item` text seen by the first, second or fourth `getline` call of
some line fails the C++ numeric parse, where `item` follows
`std::getline`'s sentry semantics: a call on a stream whose eofbit is
already set leaves the stale previous field in `item`, so a line with
fewer than four fields and no trailing delimiter re-parses its last field
for the missing ones, while a call that extracts nothing from a still-good
stream leaves `item` erased.  A wrong field count as such is not rejected:
extra fields beyond the fourth are ignored and short lines are accepted
whenever the re-used stale text parses numerically.  On success the loader
returns one record per input line in source order. -/
theorem C6_loader_amended :
    (readTickets none = Except.error LoadError.sourceUnavailable) ∧
    (∀ lines, readTickets (some lines) = Except.error LoadError.malformedRecord ↔
      ∃ l ∈ lines, parseLine l = none) ∧
    (∀ cs, parseLine cs = none ↔
      (stollM ((getlineItems cs).getD 0 []) = none ∨
       stoiM ((getlineItems cs).getD 1 []) = none ∨
       stoiM ((getlineItems cs).getD 3 []) = none)) ∧
    (∀ A B C : List Char, ',' ∉ A → ',' ∉ B → ',' ∉ C → C ≠ [] →
      getlineItems (A ++ (',' :: (B ++ (',' :: C)))) = [A, B, C, C]) ∧
    (∀ A B : List Char, ',' ∉ A → ',' ∉ B → B ≠ [] →
      getlineItems (A ++ (',' :: B)) = [A, B, B, B]) ∧
    (∀ A : List Char, ',' ∉ A → A ≠ [] → getlineItems A = [A, A, A, A]) ∧
    (∀ A : List Char, ',' ∉ A → getlineItems (A ++ [',']) = [A, [], [], []]) ∧
    (∀ lines ts, readTickets (some lines) = Except.ok ts →
      ts.length = lines.length ∧
      ∀ i, i < lines.length → parseLine (lines.getD i []) = some (ts.getD i default)) := by
  refine ⟨rfl, ?_, parseLine_none_iff, getlineItems_three, getlineItems_two,
    getlineItems_one, getlineItems_trailing, ?_⟩
  · intro lines
    constructor
    · intro h
      by_contra hall
      push_neg at hall
      obtain ⟨ts, hts⟩ := mapM_parseLine_total lines hall
      have : readTickets (some lines) = Except.ok ts := by
        show (match lines.mapM parseLine with
          | some ts' => Except.ok ts'
          | none => Except.error LoadError.malformedRecord) = _
        rw [hts]
      rw [this] at h
      cases h
    · intro hex
      show (match lines.mapM parseLine with
        | some ts' => Except.ok ts'
        | none => Except.error LoadError.malformedRecord) = _
      rw [mapM_parseLine_none lines hex]
  · intro lines ts h
    have hm : lines.mapM parseLine = some ts := by
      by_contra hne
      cases hmm : lines.mapM parseLine with
      | none =>
        have : readTickets (some lines) = Except.error LoadError.malformedRecord := by
          show (match lines.mapM parseLine with
            | some ts' => Except.ok ts'
            | none => Except.error LoadError.malformedRecord) = _
          rw [hmm]
        rw [this] at h
        cases h
      | some ts' =>
        have : readTickets (some lines) = Except.ok ts' := by
          show (match lines.mapM parseLine with
            | some ts'' => Except.ok ts''
            | none => Except.error LoadError.malformedRecord) = _
          rw [hmm]
        rw [this] at h
        rw [Except.ok.injEq] at h
        rw [h] at hmm
        exact hne hmm
    exact mapM_parseLine_some lines ts hm

/-- Closed instance of `C6_loader_amended`, discharging the stale-reuse
law at a concrete three-field line and the success hypothesis at a
concrete one-line source. -/
theorem C6_loader_amended_witness :
    getlineItems ("1,2,2024-01-01".data)
      = ["1".data, "2".data, "2024-01-01".data, "2024-01-01".data] ∧
    (([(⟨1, 2, "2024-01-01", 3⟩ : LotteryTicket)]).length
        = ["1,2,2024-01-01,3".data].length ∧
      ∀ i, i < ["1,2,2024-01-01,3".data].length →
        parseLine (["1,2,2024-01-01,3".data].getD i []) =
          some ([(⟨1, 2, "2024-01-01", 3⟩ : LotteryTicket)].getD i default)) := by
  constructor
  · exact C6_loader_amended.2.2.2.1 ("1".data) ("2".data) ("2024-01-01".data)
      (by decide) (by decide) (by decide) (by decide)
  · exact C6_loader_amended.2.2.2.2.2.2.2 ["1,2,2024-01-01,3".data]
      [⟨1, 2, "2024-01-01", 3⟩] (by rfl)
